import Mathlib

/-!
Verification of the Voltorb Flip solver core (`voltorb.py`).

Modelling conventions:
* Python ints are `ℤ`; counts that the code keeps as ints are cast where needed.
* The revealed-cell dictionary `opened` is modelled as a partial map
  `ℕ → ℕ → Option ℤ`; its keys are the coordinates of the 5×5 board,
  i.e. all reads performed by the code are at coordinates in `[0,5) × [0,5)`.
* Row patterns are `List ℤ` of length 5, boards are `List (List ℤ)`.
* The backtracking searches (`dfs` inside `_enumerate_row_patterns`,
  `dfs_row` inside `_enumerate_all_boards`) are written as pure recursive
  functions; the mutable grid / column accumulators become explicit
  arguments.  `dfs_row` carries a fuel argument equal to `5 - r` so that the
  recursion is structural.
* Probabilities (`d[v] / tot` on Python floats) are modelled as exact
  rationals `ℚ`.
-/

namespace Voltorb

abbrev Pattern := List ℤ
abbrev Grid := List (List ℤ)
abbrev OpenedMap := ℕ → ℕ → Option ℤ

/-- `_col_bounds_so_far` from the source: feasibility interval for one column
given partial accumulators and the number of unassigned rows left. -/
def _col_bounds_so_far (targetSum targetBombs partialSum partialBombs rowsLeft : ℤ) :
    Option (ℤ × ℤ) :=
  let bombsLeft := targetBombs - partialBombs
  if bombsLeft < 0 ∨ rowsLeft < bombsLeft then none
  else
    let nonbombLeft := rowsLeft - bombsLeft
    let minAdd := nonbombLeft * 1
    let maxAdd := nonbombLeft * 3
    some (partialSum + minAdd, partialSum + maxAdd)

/-- Number of `none` entries (unfixed cells) in a row-fixed list. -/
def countNone (f : List (Option ℤ)) : ℕ := f.countP (fun x => x.isNone)

/-- The inner prune of the non-bomb branches of the row DFS:
`min_p = max(0, nonbomb_slots_after) * 1`, `max_p = max(0, ...) * 3`,
branch survives iff `min_p ≤ new_rem_sum ≤ max_p`. -/
def rowTryOK (remSum remBombs : ℤ) (colsUnfixedLeft : ℕ) (v : ℤ) : Bool :=
  let newRemSum := remSum - v
  let slotsAfter := ((colsUnfixedLeft : ℤ) - 1) - remBombs
  decide ((max 0 slotsAfter) * 1 ≤ newRemSum) && decide (newRemSum ≤ (max 0 slotsAfter) * 3)

/-- The `dfs` backtracking inside `_enumerate_row_patterns`, written on the
suffix of still-unprocessed columns (`fixedRest`, the tail of `row_fixed`);
it returns the list of pattern suffixes instead of mutating an accumulator. -/
def dfs (fixedRest : List (Option ℤ)) (remSum remBombs : ℤ) : List Pattern :=
  let colsUnfixedLeft : ℕ := countNone fixedRest
  if remBombs < 0 ∨ (colsUnfixedLeft : ℤ) < remBombs then []
  else
    let nonbombSlots : ℤ := (colsUnfixedLeft : ℤ) - remBombs
    if remSum < nonbombSlots * 1 ∨ nonbombSlots * 3 < remSum then []
    else
      match fixedRest with
      | [] => if remSum = 0 ∧ remBombs = 0 then [[]] else []
      | some v :: rest => (dfs rest remSum remBombs).map (fun p => v :: p)
      | none :: rest =>
          (if 0 < remBombs then (dfs rest remSum (remBombs - 1)).map (fun p => 0 :: p) else []) ++
          ((if rowTryOK remSum remBombs colsUnfixedLeft 1 then
              (dfs rest (remSum - 1) remBombs).map (fun p => 1 :: p) else []) ++
           ((if rowTryOK remSum remBombs colsUnfixedLeft 2 then
               (dfs rest (remSum - 2) remBombs).map (fun p => 2 :: p) else []) ++
            (if rowTryOK remSum remBombs colsUnfixedLeft 3 then
               (dfs rest (remSum - 3) remBombs).map (fun p => 3 :: p) else [])))

/-- `_row_remaining`: remaining sum `R`, remaining bombs `Z`, number of and
list of unfixed column indices of row `r`. -/
def _row_remaining (r : ℕ) (row_sums row_bombs : ℕ → ℤ) (opened : OpenedMap) :
    ℤ × ℤ × ℕ × List ℕ :=
  let S : ℤ := ((List.range 5).map (fun c => (opened r c).getD 0)).sum
  let Zopen : ℕ := ((List.range 5).filter (fun c => opened r c = some 0)).length
  let R := row_sums r - S
  let Z := row_bombs r - (Zopen : ℤ)
  let cs := (List.range 5).filter (fun c => (opened r c).isNone)
  (R, Z, cs.length, cs)

/-- `row_fixed` of the source: the already-revealed values of row `r`. -/
def row_fixed (r : ℕ) (opened : OpenedMap) : List (Option ℤ) :=
  (List.range 5).map (fun c => opened r c)

/-- `_enumerate_row_patterns`: all length-5 patterns of row `r` satisfying the
row-local constraints (the `col_sums`/`col_bombs` arguments are unused, as in
the source). -/
def _enumerate_row_patterns (r : ℕ) (row_sums row_bombs col_sums col_bombs : ℕ → ℤ)
    (opened : OpenedMap) : List Pattern :=
  let rz := _row_remaining r row_sums row_bombs opened
  dfs (row_fixed r opened) rz.1 rz.2.1

/-! ### Row-level specification predicates -/

/-- Inductive characterization of the completions the row DFS accepts:
fixed cells are copied, free cells are a bomb (consuming one of the `b`
remaining bombs) or a value in `{1,2,3}` (consuming that much of `s`). -/
def RowOK : List (Option ℤ) → ℤ → ℤ → Pattern → Prop
  | [], s, b, p => p = [] ∧ s = 0 ∧ b = 0
  | some w :: f, s, b, p => ∃ q, p = w :: q ∧ RowOK f s b q
  | none :: f, s, b, p =>
      (∃ q, p = 0 :: q ∧ RowOK f s (b - 1) q) ∨
      (∃ v q, p = v :: q ∧ (v = 1 ∨ v = 2 ∨ v = 3) ∧ RowOK f (s - v) b q)

@[simp] lemma countNone_nil : countNone [] = 0 := rfl

@[simp] lemma countNone_cons_some (w : ℤ) (f : List (Option ℤ)) :
    countNone (some w :: f) = countNone f := by
  simp [countNone, List.countP_cons]

@[simp] lemma countNone_cons_none (f : List (Option ℤ)) :
    countNone (none :: f) = countNone f + 1 := by
  simp [countNone, List.countP_cons]

lemma RowOK_bounds : ∀ (f : List (Option ℤ)) (s b : ℤ) (p : Pattern), RowOK f s b p →
    0 ≤ b ∧ b ≤ (countNone f : ℤ) ∧
    ((countNone f : ℤ) - b) * 1 ≤ s ∧ s ≤ ((countNone f : ℤ) - b) * 3 := by
  intro f
  induction f with
  | nil =>
    intro s b p h
    obtain ⟨-, hs, hb⟩ := h
    simp [hs, hb]
  | cons x f ih =>
    intro s b p h
    match x with
    | some w =>
      obtain ⟨q, -, hq⟩ := h
      simpa using ih s b q hq
    | none =>
      rcases h with ⟨q, -, hq⟩ | ⟨v, q, -, hv, hq⟩
      · have := ih s (b - 1) q hq
        simp only [countNone_cons_none]
        push_cast
        omega
      · have := ih (s - v) b q hq
        simp only [countNone_cons_none]
        have hv' : 1 ≤ v ∧ v ≤ 3 := by rcases hv with h | h | h <;> omega
        push_cast
        omega

lemma dfs_eq_nil_left (f : List (Option ℤ)) (s b : ℤ)
    (h : b < 0 ∨ (countNone f : ℤ) < b) : dfs f s b = [] := by
  rw [dfs.eq_def]
  simp only [h, if_true]

lemma dfs_eq_nil_right (f : List (Option ℤ)) (s b : ℤ)
    (h1 : ¬ (b < 0 ∨ (countNone f : ℤ) < b))
    (h2 : s < ((countNone f : ℤ) - b) * 1 ∨ ((countNone f : ℤ) - b) * 3 < s) :
    dfs f s b = [] := by
  rw [dfs.eq_def]
  simp only [h1, if_false, h2, if_true]

lemma mem_ite_nil {α : Type} (c : Prop) [Decidable c] (l : List α) (x : α) :
    (x ∈ if c then l else []) ↔ c ∧ x ∈ l := by
  split <;> simp [*]

lemma mem_dfs : ∀ (f : List (Option ℤ)) (s b : ℤ) (p : Pattern),
    p ∈ dfs f s b ↔ RowOK f s b p := by
  intro f
  induction f with
  | nil =>
    intro s b p
    by_cases h1 : b < 0 ∨ ((countNone ([] : List (Option ℤ))) : ℤ) < b
    · rw [dfs_eq_nil_left _ _ _ h1]
      simp only [List.not_mem_nil, false_iff]
      intro hc
      obtain ⟨-, -, hb⟩ := hc
      simp only [countNone_nil, Nat.cast_zero] at h1
      omega
    · by_cases h2 : s < (((countNone ([] : List (Option ℤ))) : ℤ) - b) * 1 ∨
          (((countNone ([] : List (Option ℤ))) : ℤ) - b) * 3 < s
      · rw [dfs_eq_nil_right _ _ _ h1 h2]
        simp only [List.not_mem_nil, false_iff]
        intro hc
        obtain ⟨-, hs, hb⟩ := hc
        simp only [countNone_nil, Nat.cast_zero] at h2
        omega
      · rw [dfs.eq_def]
        simp only [h1, if_false, h2]
        by_cases h3 : s = 0 ∧ b = 0
        · simp [h3, RowOK, h3.1, h3.2]
        · simp only [h3, if_false, List.not_mem_nil, false_iff]
          intro hc
          exact h3 ⟨hc.2.1, hc.2.2⟩
  | cons x f ih =>
    intro s b p
    by_cases h1 : b < 0 ∨ ((countNone (x :: f)) : ℤ) < b
    · rw [dfs_eq_nil_left _ _ _ h1]
      simp only [List.not_mem_nil, false_iff]
      intro hc
      have := RowOK_bounds (x :: f) s b p hc
      omega
    · by_cases h2 : s < (((countNone (x :: f)) : ℤ) - b) * 1 ∨
          (((countNone (x :: f)) : ℤ) - b) * 3 < s
      · rw [dfs_eq_nil_right _ _ _ h1 h2]
        simp only [List.not_mem_nil, false_iff]
        intro hc
        have := RowOK_bounds (x :: f) s b p hc
        omega
      · rw [dfs.eq_def]
        simp only [h1, if_false, h2, if_false]
        match x with
        | some w =>
          simp only [List.mem_map]
          constructor
          · rintro ⟨q, hq, rfl⟩
            exact ⟨q, rfl, (ih s b q).mp hq⟩
          · rintro ⟨q, rfl, hq⟩
            exact ⟨q, (ih s b q).mpr hq, rfl⟩
        | none =>
          simp only [List.mem_append]
          constructor
          · rintro (hbomb | hin1 | hin2 | hin3)
            · rw [mem_ite_nil] at hbomb
              obtain ⟨hb, hmem⟩ := hbomb
              simp only [List.mem_map] at hmem
              obtain ⟨q, hq, rfl⟩ := hmem
              exact Or.inl ⟨q, rfl, (ih s (b - 1) q).mp hq⟩
            · rw [mem_ite_nil] at hin1
              obtain ⟨-, hmem⟩ := hin1
              simp only [List.mem_map] at hmem
              obtain ⟨q, hq, rfl⟩ := hmem
              exact Or.inr ⟨1, q, rfl, Or.inl rfl, (ih (s - 1) b q).mp hq⟩
            · rw [mem_ite_nil] at hin2
              obtain ⟨-, hmem⟩ := hin2
              simp only [List.mem_map] at hmem
              obtain ⟨q, hq, rfl⟩ := hmem
              exact Or.inr ⟨2, q, rfl, Or.inr (Or.inl rfl), (ih (s - 2) b q).mp hq⟩
            · rw [mem_ite_nil] at hin3
              obtain ⟨-, hmem⟩ := hin3
              simp only [List.mem_map] at hmem
              obtain ⟨q, hq, rfl⟩ := hmem
              exact Or.inr ⟨3, q, rfl, Or.inr (Or.inr rfl), (ih (s - 3) b q).mp hq⟩
          · rintro (⟨q, rfl, hq⟩ | ⟨v, q, rfl, hv, hq⟩)
            · have hbnd := RowOK_bounds f s (b - 1) q hq
              have hb : 0 < b := by omega
              refine Or.inl ?_
              simp only [hb, if_true, List.mem_map]
              exact ⟨q, (ih s (b - 1) q).mpr hq, rfl⟩
            · have hbnd := RowOK_bounds f (s - v) b q hq
              have htry : rowTryOK s b (countNone (none :: f)) v = true := by
                simp only [rowTryOK, Bool.and_eq_true, decide_eq_true_eq,
                  countNone_cons_none]
                push_cast
                constructor <;> [skip; skip] <;>
                  · rw [max_eq_right (by omega : (0:ℤ) ≤ (countNone f : ℤ) + 1 - 1 - b)]
                    omega
              rcases hv with rfl | rfl | rfl
              · refine Or.inr (Or.inl ?_)
                simp only [htry, if_true, List.mem_map]
                exact ⟨q, (ih (s - 1) b q).mpr hq, rfl⟩
              · refine Or.inr (Or.inr (Or.inl ?_))
                simp only [htry, if_true, List.mem_map]
                exact ⟨q, (ih (s - 2) b q).mpr hq, rfl⟩
              · refine Or.inr (Or.inr (Or.inr ?_))
                simp only [htry, if_true, List.mem_map]
                exact ⟨q, (ih (s - 3) b q).mpr hq, rfl⟩

lemma mem_map_cons {v : ℤ} {l : List Pattern} {p : Pattern}
    (h : p ∈ l.map (fun q => v :: q)) : ∃ q, p = v :: q := by
  simp only [List.mem_map] at h
  obtain ⟨q, -, rfl⟩ := h
  exact ⟨q, rfl⟩

lemma mem_ite_map_cons {c : Prop} [Decidable c] {v : ℤ} {l : List Pattern} {p : Pattern}
    (h : p ∈ if c then l.map (fun q => v :: q) else []) : ∃ q, p = v :: q := by
  rw [mem_ite_nil] at h
  exact mem_map_cons h.2

lemma nodup_ite_map_cons {c : Prop} [Decidable c] {v : ℤ} {l : List Pattern}
    (h : l.Nodup) : (if c then l.map (fun q => v :: q) else []).Nodup := by
  split
  · exact h.map (fun a b hab => by injection hab)
  · exact List.nodup_nil

lemma dfs_nodup : ∀ (f : List (Option ℤ)) (s b : ℤ), (dfs f s b).Nodup := by
  intro f
  induction f with
  | nil =>
    intro s b
    by_cases h1 : b < 0 ∨ ((countNone ([] : List (Option ℤ))) : ℤ) < b
    · rw [dfs_eq_nil_left _ _ _ h1]; exact List.nodup_nil
    · by_cases h2 : s < (((countNone ([] : List (Option ℤ))) : ℤ) - b) * 1 ∨
          (((countNone ([] : List (Option ℤ))) : ℤ) - b) * 3 < s
      · rw [dfs_eq_nil_right _ _ _ h1 h2]; exact List.nodup_nil
      · rw [dfs.eq_def]
        simp only [h1, if_false, h2, if_false]
        split <;> simp
  | cons x f ih =>
    intro s b
    by_cases h1 : b < 0 ∨ ((countNone (x :: f)) : ℤ) < b
    · rw [dfs_eq_nil_left _ _ _ h1]; exact List.nodup_nil
    · by_cases h2 : s < (((countNone (x :: f)) : ℤ) - b) * 1 ∨
          (((countNone (x :: f)) : ℤ) - b) * 3 < s
      · rw [dfs_eq_nil_right _ _ _ h1 h2]; exact List.nodup_nil
      · rw [dfs.eq_def]
        simp only [h1, if_false, h2, if_false]
        match x with
        | some w =>
          exact (ih s b).map (fun a b hab => by injection hab)
        | none =>
          refine List.Nodup.append (nodup_ite_map_cons (ih s (b - 1))) ?_ ?_
          · refine List.Nodup.append (nodup_ite_map_cons (ih (s - 1) b)) ?_ ?_
            · refine List.Nodup.append (nodup_ite_map_cons (ih (s - 2) b)) (nodup_ite_map_cons (ih (s - 3) b)) ?_
              · intro p h2 h3
                obtain ⟨q, rfl⟩ := mem_ite_map_cons h2
                obtain ⟨q', hq'⟩ := mem_ite_map_cons h3
                exact absurd hq' (by simp)
            · intro p h1 h23
              obtain ⟨q, rfl⟩ := mem_ite_map_cons h1
              rcases List.mem_append.mp h23 with h2 | h3
              · obtain ⟨q', hq'⟩ := mem_ite_map_cons h2
                exact absurd hq' (by simp)
              · obtain ⟨q', hq'⟩ := mem_ite_map_cons h3
                exact absurd hq' (by simp)
          · intro p h0 h123
            obtain ⟨q, rfl⟩ := mem_ite_map_cons h0
            rcases List.mem_append.mp h123 with h1 | h23
            · obtain ⟨q', hq'⟩ := mem_ite_map_cons h1
              exact absurd hq' (by simp)
            · rcases List.mem_append.mp h23 with h2 | h3
              · obtain ⟨q', hq'⟩ := mem_ite_map_cons h2
                exact absurd hq' (by simp)
              · obtain ⟨q', hq'⟩ := mem_ite_map_cons h3
                exact absurd hq' (by simp)

/-! ### List-level row specification -/

/-- The pattern agrees with every fixed (revealed) cell of the row. -/
def agreeB : Pattern → List (Option ℤ) → Bool
  | _, [] => true
  | [], _ :: _ => true
  | v :: p, some w :: f => v == w && agreeB p f
  | _ :: p, none :: f => agreeB p f

/-- Every free (unrevealed) cell of the pattern holds a value in `{0,1,2,3}`. -/
def freeOkB : Pattern → List (Option ℤ) → Bool
  | _, [] => true
  | [], _ :: _ => true
  | _ :: p, some _ :: f => freeOkB p f
  | v :: p, none :: f => decide (0 ≤ v) && decide (v ≤ 3) && freeOkB p f

/-- Sum of the pattern values at free positions. -/
def freeSum : Pattern → List (Option ℤ) → ℤ
  | v :: p, none :: f => v + freeSum p f
  | _ :: p, some _ :: f => freeSum p f
  | _, _ => 0

/-- Number of zeros (bombs) of the pattern at free positions. -/
def freeZeros : Pattern → List (Option ℤ) → ℤ
  | v :: p, none :: f => (if v = 0 then 1 else 0) + freeZeros p f
  | _ :: p, some _ :: f => freeZeros p f
  | _, _ => 0

lemma RowOK_iff : ∀ (f : List (Option ℤ)) (s b : ℤ) (p : Pattern),
    RowOK f s b p ↔
      p.length = f.length ∧ agreeB p f = true ∧ freeOkB p f = true ∧
      freeSum p f = s ∧ freeZeros p f = b := by
  intro f
  induction f with
  | nil =>
    intro s b p
    match p with
    | [] => simp [RowOK, freeSum, freeZeros, agreeB, freeOkB, eq_comm]
    | v :: p => simp [RowOK, freeSum, freeZeros]
  | cons x f ih =>
    intro s b p
    match x, p with
    | some w, [] =>
      simp [RowOK, agreeB]
    | some w, v :: p =>
      simp only [RowOK, agreeB, freeOkB, freeSum, freeZeros, List.length_cons,
        Nat.add_right_cancel_iff, Bool.and_eq_true, beq_iff_eq]
      constructor
      · rintro ⟨q, hq, hrow⟩
        injection hq with h1 h2
        subst h1
        subst h2
        have := (ih s b p).mp hrow
        tauto
      · rintro ⟨hlen, ⟨rfl, hag⟩, hok, hsum, hz⟩
        exact ⟨p, rfl, (ih s b p).mpr ⟨hlen, hag, hok, hsum, hz⟩⟩
    | none, [] =>
      simp [RowOK]
    | none, v :: p =>
      simp only [RowOK, agreeB, freeOkB, freeSum, freeZeros, List.length_cons,
        Nat.add_right_cancel_iff, Bool.and_eq_true, decide_eq_true_eq]
      constructor
      · rintro (⟨q, hq, hrow⟩ | ⟨u, q, hq, hu, hrow⟩)
        · injection hq with h1 h2
          subst h1
          subst h2
          obtain ⟨hlen, hag, hok, hsum, hz⟩ := (ih s (b - 1) p).mp hrow
          refine ⟨hlen, hag, ⟨⟨by omega, by omega⟩, hok⟩, by omega, ?_⟩
          simp only [if_true, eq_self_iff_true]
          omega
        · injection hq with h1 h2
          subst h1
          subst h2
          obtain ⟨hlen, hag, hok, hsum, hz⟩ := (ih (s - v) b p).mp hrow
          have hv : v = 1 ∨ v = 2 ∨ v = 3 := hu
          refine ⟨hlen, hag, ⟨⟨by omega, by omega⟩, hok⟩, by omega, ?_⟩
          rw [if_neg (by omega : ¬ v = 0)]
          omega
      · rintro ⟨hlen, hag, ⟨⟨hv0, hv3⟩, hok⟩, hsum, hz⟩
        by_cases hv : v = 0
        · subst hv
          refine Or.inl ⟨p, rfl, (ih s (b - 1) p).mpr ⟨hlen, hag, hok, by omega, ?_⟩⟩
          simp only [if_true, eq_self_iff_true] at hz
          omega
        · refine Or.inr ⟨v, p, rfl, by omega, (ih (s - v) b p).mpr ⟨hlen, hag, hok, by omega, ?_⟩⟩
          rw [if_neg hv] at hz
          omega

/-- Sum of the revealed values of a row-fixed list (`none` contributes 0). -/
def fixedSum (f : List (Option ℤ)) : ℤ := (f.map (fun x => x.getD 0)).sum

/-- Number of revealed bombs of a row-fixed list. -/
def fixedZeros (f : List (Option ℤ)) : ℤ := (f.countP (fun x => x == some 0) : ℤ)

lemma sum_eq_freeSum_add : ∀ (f : List (Option ℤ)) (p : Pattern),
    p.length = f.length → agreeB p f = true → p.sum = freeSum p f + fixedSum f := by
  intro f
  induction f with
  | nil =>
    intro p hlen _
    rw [List.length_nil, List.length_eq_zero] at hlen
    subst hlen
    simp [freeSum, fixedSum]
  | cons x f ih =>
    intro p hlen hag
    match x, p with
    | some w, [] => simp at hlen
    | none, [] => simp at hlen
    | some w, v :: p =>
      simp only [agreeB, Bool.and_eq_true, beq_iff_eq] at hag
      obtain ⟨rfl, hag⟩ := hag
      simp only [List.length_cons, Nat.add_right_cancel_iff] at hlen
      have := ih p hlen hag
      simp only [List.sum_cons, freeSum, fixedSum, List.map_cons, Option.getD_some]
      simp only [fixedSum] at this
      omega
    | none, v :: p =>
      simp only [agreeB] at hag
      simp only [List.length_cons, Nat.add_right_cancel_iff] at hlen
      have := ih p hlen hag
      simp only [List.sum_cons, freeSum, fixedSum, List.map_cons, Option.getD_none]
      simp only [fixedSum] at this
      omega

lemma count_eq_freeZeros_add : ∀ (f : List (Option ℤ)) (p : Pattern),
    p.length = f.length → agreeB p f = true →
    (p.count 0 : ℤ) = freeZeros p f + fixedZeros f := by
  intro f
  induction f with
  | nil =>
    intro p hlen _
    rw [List.length_nil, List.length_eq_zero] at hlen
    subst hlen
    simp [freeZeros, fixedZeros]
  | cons x f ih =>
    intro p hlen hag
    match x, p with
    | some w, [] => simp at hlen
    | none, [] => simp at hlen
    | some w, v :: p =>
      simp only [agreeB, Bool.and_eq_true, beq_iff_eq] at hag
      obtain ⟨rfl, hag⟩ := hag
      simp only [List.length_cons, Nat.add_right_cancel_iff] at hlen
      have h := ih p hlen hag
      simp only [fixedZeros] at h
      by_cases hv : v = 0
      · subst hv
        simp only [freeZeros, fixedZeros, List.countP_cons, List.count_cons, beq_self_eq_true,
          if_true, Option.some.injEq]
        push_cast at h ⊢
        omega
      · simp only [freeZeros, fixedZeros, List.countP_cons, List.count_cons, beq_iff_eq,
          Option.some.injEq, hv, if_false]
        push_cast at h ⊢
        omega
    | none, v :: p =>
      simp only [agreeB] at hag
      simp only [List.length_cons, Nat.add_right_cancel_iff] at hlen
      have h := ih p hlen hag
      simp only [fixedZeros] at h
      by_cases hv : v = 0
      · subst hv
        simp [freeZeros, fixedZeros, List.countP_cons, List.count_cons]
        push_cast at h ⊢
        omega
      · simp [freeZeros, fixedZeros, List.countP_cons, List.count_cons, hv]
        push_cast at h ⊢
        omega

@[simp] lemma row_fixed_length (r : ℕ) (opened : OpenedMap) :
    (row_fixed r opened).length = 5 := by
  simp [row_fixed]

lemma fixedSum_row_fixed (r : ℕ) (opened : OpenedMap) :
    fixedSum (row_fixed r opened) =
      ((List.range 5).map (fun c => (opened r c).getD 0)).sum := by
  simp only [fixedSum, row_fixed, List.map_map]
  rfl

lemma fixedZeros_row_fixed (r : ℕ) (opened : OpenedMap) :
    fixedZeros (row_fixed r opened) =
      (((List.range 5).filter (fun c => opened r c = some 0)).length : ℤ) := by
  simp only [fixedZeros, row_fixed, List.countP_map]
  rw [← List.countP_eq_length_filter]
  congr 1
  apply List.countP_congr
  intro x hx
  simp

/-- Membership characterization of `_enumerate_row_patterns`: a pattern is
produced iff it has length 5, agrees with the revealed cells of row `r`, puts
values in `{0,1,2,3}` on the unrevealed cells, and has total sum `row_sums r`
and exactly `row_bombs r` zeros. -/
lemma mem_enumerate_row_patterns (r : ℕ) (rs rb cs cb : ℕ → ℤ) (opened : OpenedMap)
    (p : Pattern) :
    p ∈ _enumerate_row_patterns r rs rb cs cb opened ↔
      p.length = 5 ∧ agreeB p (row_fixed r opened) = true ∧
      freeOkB p (row_fixed r opened) = true ∧
      p.sum = rs r ∧ (p.count 0 : ℤ) = rb r := by
  rw [_enumerate_row_patterns]
  rw [mem_dfs, RowOK_iff]
  rw [_row_remaining]
  simp only [row_fixed_length]
  constructor
  · rintro ⟨hlen, hag, hok, hsum, hz⟩
    refine ⟨hlen, hag, hok, ?_, ?_⟩
    · have h := sum_eq_freeSum_add (row_fixed r opened) p (by simpa using hlen) hag
      rw [fixedSum_row_fixed] at h
      omega
    · have h := count_eq_freeZeros_add (row_fixed r opened) p (by simpa using hlen) hag
      rw [fixedZeros_row_fixed] at h
      omega
  · rintro ⟨hlen, hag, hok, hsum, hz⟩
    refine ⟨hlen, hag, hok, ?_, ?_⟩
    · have h := sum_eq_freeSum_add (row_fixed r opened) p (by simpa using hlen) hag
      rw [fixedSum_row_fixed] at h
      omega
    · have h := count_eq_freeZeros_add (row_fixed r opened) p (by simpa using hlen) hag
      rw [fixedZeros_row_fixed] at h
      omega

lemma enumerate_row_patterns_nodup (r : ℕ) (rs rb cs cb : ℕ → ℤ) (opened : OpenedMap) :
    (_enumerate_row_patterns r rs rb cs cb opened).Nodup := by
  rw [_enumerate_row_patterns]
  exact dfs_nodup _ _ _

/-! ### Board assembly (`_enumerate_all_boards`) -/

/-- Initial per-column sum accumulator, seeded from the revealed cells:
`col_sum = [sum(opened.get((r, c), 0) for r in range(N)) for c in range(N)]`. -/
def colSumInit (opened : OpenedMap) (c : ℕ) : ℤ :=
  ((List.range 5).map (fun r => (opened r c).getD 0)).sum

/-- Initial per-column bomb-count accumulator:
`col_bz = [sum(1 for r in range(N) if opened.get((r, c)) == 0) for c in range(N)]`. -/
def colBzInit (opened : OpenedMap) (c : ℕ) : ℤ :=
  ((((List.range 5)).filter (fun r => opened r c = some 0)).length : ℤ)

/-- The working grid is a partial map; initially it holds the revealed cells. -/
def gridInit (opened : OpenedMap) : ℕ → ℕ → Option ℤ := fun r c => opened r c

/-- `rows_left` of the column prune: number of rows strictly below `r` whose
cell in column `c` is still unset in the working grid. -/
def rowsLeftFor (grid : ℕ → ℕ → Option ℤ) (r c : ℕ) : ℤ :=
  (((((List.range 5)).drop (r + 1)).filter (fun rr => (grid rr c).isNone)).length : ℤ)

/-- The defensive agreement check of `dfs_row`: the pattern must match every
already-set cell of row `r` of the working grid. -/
def patFits (grid : ℕ → ℕ → Option ℤ) (r : ℕ) (pat : Pattern) : Bool :=
  (List.range 5).all (fun c =>
    match grid r c with
    | none => true
    | some w => pat.getD c 0 == w)

/-- Applying a row pattern: the per-column delta `incr_sum[c] = v - (prev or 0)`
added to the running column sums. -/
def bumpSum (colSum : ℕ → ℤ) (grid : ℕ → ℕ → Option ℤ) (r : ℕ) (pat : Pattern) : ℕ → ℤ :=
  fun c => colSum c + (pat.getD c 0 - (grid r c).getD 0)

/-- Per-column bomb-count delta
`incr_bz[c] = (1 if v == 0 else 0) - (1 if prev == 0 else 0)`. -/
def bumpBz (colBz : ℕ → ℤ) (grid : ℕ → ℕ → Option ℤ) (r : ℕ) (pat : Pattern) : ℕ → ℤ :=
  fun c => colBz c + ((if pat.getD c 0 = 0 then 1 else 0) - (if grid r c = some 0 then 1 else 0))

/-- Writing a row pattern into the working grid. -/
def applyPat (grid : ℕ → ℕ → Option ℤ) (r : ℕ) (pat : Pattern) : ℕ → ℕ → Option ℤ :=
  fun rr c => if rr = r then some (pat.getD c 0) else grid rr c

/-- The column prune performed after tentatively placing a row pattern. -/
def colCheck (col_sums col_bombs colSum colBz : ℕ → ℤ) (grid : ℕ → ℕ → Option ℤ)
    (r : ℕ) : Bool :=
  (List.range 5).all (fun c =>
    match _col_bounds_so_far (col_sums c) (col_bombs c) (colSum c) (colBz c)
        (rowsLeftFor grid r c) with
    | none => false
    | some lohi => decide (lohi.1 ≤ col_sums c) && decide (col_sums c ≤ lohi.2))

/-- Reading the finished grid out as a board (all 25 cells are set when this
is reached, so the `getD 0` default is never used). -/
def gridOut (grid : ℕ → ℕ → Option ℤ) : Grid :=
  (List.range 5).map (fun r => (List.range 5).map (fun c => (grid r c).getD 0))

/-- The `dfs_row` backtracking inside `_enumerate_all_boards`.  The mutable
grid and column accumulators are passed explicitly; `fuel` equals `5 - r` on
every call so the recursion is structural (`fuel = 0` with `r < 5` is never
reached from the entry point). -/
def dfs_row (row_pats : ℕ → List Pattern) (col_sums col_bombs : ℕ → ℤ)
    (fuel r : ℕ) (colSum colBz : ℕ → ℤ) (grid : ℕ → ℕ → Option ℤ) : List Grid :=
    if r = 5 then
      if (List.range 5).all (fun c =>
          colSum c == col_sums c && colBz c == col_bombs c) then [gridOut grid] else []
    else
      match fuel with
      | 0 => []
      | fuel2 + 1 =>
        (row_pats r).flatMap (fun pat =>
          if patFits grid r pat then
            if colCheck col_sums col_bombs (bumpSum colSum grid r pat)
                (bumpBz colBz grid r pat) (applyPat grid r pat) r then
              dfs_row row_pats col_sums col_bombs fuel2 (r + 1) (bumpSum colSum grid r pat)
                (bumpBz colBz grid r pat) (applyPat grid r pat)
            else []
          else [])

/-- `_enumerate_all_boards`: precompute each row's patterns (returning `[]`
as soon as one row has none), then backtrack row by row with column pruning. -/
def _enumerate_all_boards (row_sums row_bombs col_sums col_bombs : ℕ → ℤ)
    (opened : OpenedMap) : List Grid :=
  if (List.range 5).any (fun r =>
      (_enumerate_row_patterns r row_sums row_bombs col_sums col_bombs opened).isEmpty) then []
  else
    dfs_row (fun r => _enumerate_row_patterns r row_sums row_bombs col_sums col_bombs opened)
      col_sums col_bombs 5 0 (colSumInit opened) (colBzInit opened) (gridInit opened)

/-! ### Partial-state view of the board search

`placed` is the list of row patterns already committed (rows `0..placed.length-1`);
the three `st*` functions give the exact values of the working grid and the two
column accumulators at that point of the backtracking. -/

/-- Working grid after committing `placed`. -/
def stGrid (opened : OpenedMap) (placed : List Pattern) : ℕ → ℕ → Option ℤ :=
  fun rr c =>
    match placed[rr]? with
    | some row => some (row.getD c 0)
    | none => opened rr c

/-- Column-sum accumulator after committing `placed`. -/
def stColSum (opened : OpenedMap) (placed : List Pattern) (c : ℕ) : ℤ :=
  (placed.map (fun row => row.getD c 0)).sum +
    (((List.range 5).drop placed.length).map (fun rr => (opened rr c).getD 0)).sum

/-- Column bomb-count accumulator after committing `placed`. -/
def stColBz (opened : OpenedMap) (placed : List Pattern) (c : ℕ) : ℤ :=
  (placed.countP (fun row => row.getD c 0 == 0) : ℤ) +
    ((((List.range 5).drop placed.length).filter (fun rr => opened rr c = some 0)).length : ℤ)

lemma range5_drop (r : ℕ) (h : r < 5) :
    (List.range 5).drop r = r :: (List.range 5).drop (r + 1) := by
  interval_cases r <;> rfl

@[simp] lemma stGrid_nil (opened : OpenedMap) : stGrid opened [] = gridInit opened := by
  funext rr c
  simp [stGrid, gridInit]

@[simp] lemma stColSum_nil (opened : OpenedMap) : stColSum opened [] = colSumInit opened := by
  funext c
  simp [stColSum, colSumInit]

@[simp] lemma stColBz_nil (opened : OpenedMap) : stColBz opened [] = colBzInit opened := by
  funext c
  simp [stColBz, colBzInit]

lemma stGrid_lt (opened : OpenedMap) (placed : List Pattern) (rr c : ℕ)
    (h : rr < placed.length) :
    stGrid opened placed rr c = some ((placed.getD rr []).getD c 0) := by
  simp [stGrid, List.getElem?_eq_getElem h, List.getD_eq_getElem?_getD, List.getElem?_eq_getElem h]

lemma stGrid_ge (opened : OpenedMap) (placed : List Pattern) (rr c : ℕ)
    (h : placed.length ≤ rr) :
    stGrid opened placed rr c = opened rr c := by
  simp [stGrid, List.getElem?_eq_none h]

lemma stGrid_snoc (opened : OpenedMap) (placed : List Pattern) (pat : Pattern) :
    stGrid opened (placed ++ [pat]) = applyPat (stGrid opened placed) placed.length pat := by
  funext rr c
  simp only [stGrid, applyPat]
  rcases lt_trichotomy rr placed.length with h | h | h
  · rw [if_neg (by omega), List.getElem?_append, if_pos h]
  · subst h
    rw [if_pos rfl, List.getElem?_append, if_neg (by omega), Nat.sub_self]
    rfl
  · rw [if_neg (by omega), List.getElem?_append, if_neg (by omega)]
    rw [List.getElem?_eq_none (l := [pat]) (by simp only [List.length_singleton]; omega),
      List.getElem?_eq_none (by omega)]

lemma stColSum_snoc (opened : OpenedMap) (placed : List Pattern) (pat : Pattern)
    (h : placed.length < 5) :
    stColSum opened (placed ++ [pat]) =
      bumpSum (stColSum opened placed) (stGrid opened placed) placed.length pat := by
  funext c
  simp only [stColSum, bumpSum, List.map_append, List.sum_append, List.length_append,
    List.length_singleton, List.map_cons, List.map_nil, List.sum_cons, List.sum_nil]
  rw [stGrid_ge opened placed placed.length c (le_refl _)]
  rw [range5_drop placed.length h]
  simp only [List.map_cons, List.sum_cons]
  ring

lemma stColBz_snoc (opened : OpenedMap) (placed : List Pattern) (pat : Pattern)
    (h : placed.length < 5) :
    stColBz opened (placed ++ [pat]) =
      bumpBz (stColBz opened placed) (stGrid opened placed) placed.length pat := by
  funext c
  simp only [stColBz, bumpBz, List.countP_append, List.length_append, List.length_singleton]
  rw [stGrid_ge opened placed placed.length c (le_refl _)]
  rw [range5_drop placed.length h]
  by_cases h0 : pat.getD c 0 = 0 <;> by_cases h1 : opened placed.length c = some 0 <;>
    simp [h0, h1, List.filter_cons, List.countP_cons] <;> push_cast <;> omega

lemma row_fixed_getD (r c : ℕ) (opened : OpenedMap) (hc : c < 5) :
    (row_fixed r opened).getD c none = opened r c := by
  rw [row_fixed, List.getD_eq_getElem?_getD, List.getElem?_map, List.getElem?_range hc]
  rfl

lemma agreeB_getD : ∀ (f : List (Option ℤ)) (p : Pattern), agreeB p f = true →
    p.length = f.length → ∀ i w, f.getD i none = some w → p.getD i 0 = w := by
  intro f
  induction f with
  | nil =>
    intro p _ _ i w hw
    simp [List.getD_eq_getElem?_getD] at hw
  | cons x f ih =>
    intro p hag hlen i w hw
    match x, p with
    | some u, [] => simp at hlen
    | none, [] => simp at hlen
    | some u, v :: p =>
      simp only [agreeB, Bool.and_eq_true, beq_iff_eq] at hag
      obtain ⟨rfl, hag⟩ := hag
      match i with
      | 0 =>
        rw [List.getD_cons_zero] at hw ⊢
        injection hw
      | i + 1 =>
        rw [List.getD_cons_succ] at hw ⊢
        exact ih p hag (by simpa using hlen) i w hw
    | none, v :: p =>
      simp only [agreeB] at hag
      match i with
      | 0 => rw [List.getD_cons_zero] at hw; exact absurd hw (by simp)
      | i + 1 =>
        rw [List.getD_cons_succ] at hw ⊢
        exact ih p hag (by simpa using hlen) i w hw

lemma freeOkB_getD : ∀ (f : List (Option ℤ)) (p : Pattern), freeOkB p f = true →
    p.length = f.length → ∀ i, f.getD i none = none →
    0 ≤ p.getD i 0 ∧ p.getD i 0 ≤ 3 := by
  intro f
  induction f with
  | nil =>
    intro p _ hlen i _
    rw [List.length_nil, List.length_eq_zero] at hlen
    subst hlen
    simp [List.getD_eq_getElem?_getD]
  | cons x f ih =>
    intro p hok hlen i hw
    match x, p with
    | some u, [] => simp at hlen
    | none, [] => simp at hlen
    | some u, v :: p =>
      simp only [freeOkB] at hok
      match i with
      | 0 => rw [List.getD_cons_zero] at hw; exact absurd hw (by simp)
      | i + 1 =>
        rw [List.getD_cons_succ] at hw ⊢
        exact ih p hok (by simpa using hlen) i hw
    | none, v :: p =>
      simp only [freeOkB, Bool.and_eq_true, decide_eq_true_eq] at hok
      match i with
      | 0 =>
        rw [List.getD_cons_zero]
        exact hok.1
      | i + 1 =>
        rw [List.getD_cons_succ] at hw ⊢
        exact ih p hok.2 (by simpa using hlen) i hw

lemma patFits_stGrid (opened : OpenedMap) (placed : List Pattern) (pat : Pattern)
    (hag : agreeB pat (row_fixed placed.length opened) = true) (hlen : pat.length = 5) :
    patFits (stGrid opened placed) placed.length pat = true := by
  rw [patFits, List.all_eq_true]
  intro c hc
  rw [List.mem_range] at hc
  rw [stGrid_ge opened placed placed.length c (le_refl _)]
  cases hop : opened placed.length c with
  | none => rfl
  | some w =>
    have h := agreeB_getD _ pat hag (by simpa using hlen) c w
      (by rw [row_fixed_getD _ _ _ hc, hop])
    simp only [beq_iff_eq]
    exact h

/-! ### Column accounting over the not-yet-placed rows -/

/-- Sum that the rows `rest` (starting at row `r0`) contribute to column `c`
through cells that are not revealed. -/
def freeColSum (opened : OpenedMap) : ℕ → List Pattern → ℕ → ℤ
  | _, [], _ => 0
  | r0, row :: rest, c =>
      (if (opened r0 c).isNone then row.getD c 0 else 0) + freeColSum opened (r0 + 1) rest c

/-- Bombs the rows `rest` place on unrevealed cells of column `c`. -/
def freeColZeros (opened : OpenedMap) : ℕ → List Pattern → ℕ → ℤ
  | _, [], _ => 0
  | r0, row :: rest, c =>
      (if (opened r0 c).isNone ∧ row.getD c 0 = 0 then 1 else 0) +
        freeColZeros opened (r0 + 1) rest c

/-- Number of unrevealed cells of column `c` among the rows of `rest`. -/
def freeColCount (opened : OpenedMap) : ℕ → List Pattern → ℕ → ℤ
  | _, [], _ => 0
  | r0, _ :: rest, c =>
      (if (opened r0 c).isNone then 1 else 0) + freeColCount opened (r0 + 1) rest c

/-- Well-formedness of a block of rows starting at row index `r0`: each has
length 5, agrees with the revealed cells of its row, and keeps unrevealed
cells in `{0,1,2,3}`. -/
def RowsOK (opened : OpenedMap) (r0 : ℕ) (rest : List Pattern) : Prop :=
  ∀ i (hi : i < rest.length), (rest.get ⟨i, hi⟩).length = 5 ∧
    agreeB (rest.get ⟨i, hi⟩) (row_fixed (r0 + i) opened) = true ∧
    freeOkB (rest.get ⟨i, hi⟩) (row_fixed (r0 + i) opened) = true

lemma RowsOK_nil (opened : OpenedMap) (r0 : ℕ) : RowsOK opened r0 [] := by
  intro i hi
  simp at hi

lemma RowsOK_cons_iff (opened : OpenedMap) (r0 : ℕ) (row : Pattern) (rest : List Pattern) :
    RowsOK opened r0 (row :: rest) ↔
      (row.length = 5 ∧ agreeB row (row_fixed r0 opened) = true ∧
        freeOkB row (row_fixed r0 opened) = true) ∧ RowsOK opened (r0 + 1) rest := by
  constructor
  · intro h
    refine ⟨by simpa using h 0 (by simp), ?_⟩
    intro i hi
    have := h (i + 1) (by simpa using hi)
    simpa [Nat.add_assoc, Nat.add_comm 1 i] using this
  · rintro ⟨h0, h⟩
    intro i hi
    match i with
    | 0 => simpa using h0
    | i + 1 =>
      have := h i (by simpa using hi)
      simpa [Nat.add_assoc, Nat.add_comm 1 i] using this

lemma mem_drop_range5 (n rr : ℕ) (h : rr ∈ (List.range 5).drop n) : n ≤ rr := by
  rw [List.mem_iff_getElem?] at h
  obtain ⟨i, hi⟩ := h
  rw [List.getElem?_drop] at hi
  have h5 : n + i < 5 := by
    by_contra hcon
    rw [List.getElem?_eq_none (by simpa using hcon)] at hi
    exact Option.noConfusion hi
  rw [List.getElem?_range h5] at hi
  injection hi with hi
  omega

lemma stColSum_append (opened : OpenedMap) : ∀ (rest placed : List Pattern) (c : ℕ),
    c < 5 → placed.length + rest.length ≤ 5 → RowsOK opened placed.length rest →
    stColSum opened (placed ++ rest) c =
      stColSum opened placed c + freeColSum opened placed.length rest c := by
  intro rest
  induction rest with
  | nil =>
    intro placed c _ _ _
    simp [freeColSum]
  | cons row rest ih =>
    intro placed c hc hlen hrows
    have hplt : placed.length < 5 := by
      simp only [List.length_cons] at hlen
      omega
    obtain ⟨⟨hrl, hra, -⟩, htail⟩ := (RowsOK_cons_iff opened placed.length row rest).mp hrows
    have hsplit : placed ++ row :: rest = (placed ++ [row]) ++ rest := by simp
    have hlen2 : (placed ++ [row]).length + rest.length ≤ 5 := by
      simp only [List.length_append, List.length_singleton, List.length_cons,
        List.length_nil] at hlen ⊢
      omega
    have htail2 : RowsOK opened (placed ++ [row]).length rest := by
      rw [List.length_append, List.length_singleton]
      exact htail
    rw [hsplit]
    rw [ih (placed ++ [row]) c hc hlen2 htail2]
    rw [stColSum_snoc opened placed row hplt]
    simp only [List.length_append, List.length_singleton]
    simp only [bumpSum, freeColSum, List.length_append, List.length_singleton]
    rw [stGrid_ge opened placed placed.length c (le_refl _)]
    cases hop : opened placed.length c with
    | none => simp [hop]; ring
    | some w =>
      have hval := agreeB_getD _ row hra (by simpa using hrl) c w
        (by rw [row_fixed_getD _ _ _ hc, hop])
      simp only [Option.isNone_some, Bool.false_eq_true, if_false, Option.getD_some, hval]
      ring

lemma stColBz_append (opened : OpenedMap) : ∀ (rest placed : List Pattern) (c : ℕ),
    c < 5 → placed.length + rest.length ≤ 5 → RowsOK opened placed.length rest →
    stColBz opened (placed ++ rest) c =
      stColBz opened placed c + freeColZeros opened placed.length rest c := by
  intro rest
  induction rest with
  | nil =>
    intro placed c _ _ _
    simp [freeColZeros]
  | cons row rest ih =>
    intro placed c hc hlen hrows
    have hplt : placed.length < 5 := by
      simp only [List.length_cons] at hlen
      omega
    obtain ⟨⟨hrl, hra, -⟩, htail⟩ := (RowsOK_cons_iff opened placed.length row rest).mp hrows
    have hsplit : placed ++ row :: rest = (placed ++ [row]) ++ rest := by simp
    have hlen2 : (placed ++ [row]).length + rest.length ≤ 5 := by
      simp only [List.length_append, List.length_singleton, List.length_cons,
        List.length_nil] at hlen ⊢
      omega
    have htail2 : RowsOK opened (placed ++ [row]).length rest := by
      rw [List.length_append, List.length_singleton]
      exact htail
    rw [hsplit]
    rw [ih (placed ++ [row]) c hc hlen2 htail2]
    rw [stColBz_snoc opened placed row hplt]
    simp only [List.length_append, List.length_singleton]
    simp only [bumpBz, freeColZeros, List.length_append, List.length_singleton]
    rw [stGrid_ge opened placed placed.length c (le_refl _)]
    cases hop : opened placed.length c with
    | none =>
      by_cases h0 : row.getD c 0 = 0 <;>
        simp [hop, h0] <;> push_cast <;> ring
    | some w =>
      have hval := agreeB_getD _ row hra (by simpa using hrl) c w
        (by rw [row_fixed_getD _ _ _ hc, hop])
      rw [List.getD_eq_getElem?_getD] at hval
      by_cases hw : w = 0 <;>
        simp [hop, hval, hw] <;> push_cast <;> ring

lemma freeCol_bounds (opened : OpenedMap) : ∀ (rest : List Pattern) (r0 c : ℕ),
    c < 5 → RowsOK opened r0 rest →
    0 ≤ freeColZeros opened r0 rest c ∧
    freeColZeros opened r0 rest c ≤ freeColCount opened r0 rest c ∧
    (freeColCount opened r0 rest c - freeColZeros opened r0 rest c) * 1 ≤
      freeColSum opened r0 rest c ∧
    freeColSum opened r0 rest c ≤
      (freeColCount opened r0 rest c - freeColZeros opened r0 rest c) * 3 := by
  intro rest
  induction rest with
  | nil =>
    intro r0 c _ _
    simp [freeColSum, freeColZeros, freeColCount]
  | cons row rest ih =>
    intro r0 c hc hrows
    obtain ⟨⟨hrl, -, hrf⟩, htail⟩ := (RowsOK_cons_iff opened r0 row rest).mp hrows
    have hih := ih (r0 + 1) c hc htail
    simp only [freeColSum, freeColZeros, freeColCount]
    cases hop : opened r0 c with
    | some w =>
      simp only [Option.isNone_some, Bool.false_eq_true, false_and, if_false]
      omega
    | none =>
      have hval := freeOkB_getD _ row hrf (by simpa using hrl) c
        (by rw [row_fixed_getD _ _ _ hc, hop])
      simp only [Option.isNone_none, true_and, if_true]
      simp only [List.getD_eq_getElem?_getD] at hval ⊢
      by_cases h0 : row[c]?.getD 0 = 0
      · rw [if_pos h0]
        omega
      · rw [if_neg h0]
        omega

lemma freeColCount_eq (opened : OpenedMap) : ∀ (rest : List Pattern) (r0 c : ℕ),
    r0 + rest.length = 5 →
    freeColCount opened r0 rest c =
      ((((List.range 5).drop r0).filter (fun rr => (opened rr c).isNone)).length : ℤ) := by
  intro rest
  induction rest with
  | nil =>
    intro r0 c h
    simp only [List.length_nil] at h
    rw [List.drop_eq_nil_of_le (by simp only [List.length_range]; omega)]
    simp [freeColCount]
  | cons row rest ih =>
    intro r0 c h
    have hr0 : r0 < 5 := by
      simp only [List.length_cons] at h
      omega
    rw [freeColCount, range5_drop r0 hr0, List.filter_cons]
    rw [ih (r0 + 1) c (by simp only [List.length_cons] at h; omega)]
    cases hop : opened r0 c with
    | none =>
      simp [hop]
      omega
    | some w => simp [hop]

lemma rowsLeftFor_stGrid (opened : OpenedMap) (placed2 : List Pattern) (r c : ℕ)
    (h : placed2.length = r + 1) :
    rowsLeftFor (stGrid opened placed2) r c =
      ((((List.range 5).drop (r + 1)).filter (fun rr => (opened rr c).isNone)).length : ℤ) := by
  rw [rowsLeftFor]
  congr 2
  apply List.filter_congr
  intro rr hrr
  have hge : r + 1 ≤ rr := mem_drop_range5 _ _ hrr
  rw [stGrid_ge opened placed2 rr c (by omega)]

lemma col_bounds_eq_none_iff (ts tb ps pb rl : ℤ) :
    _col_bounds_so_far ts tb ps pb rl = none ↔ (tb - pb < 0 ∨ rl < tb - pb) := by
  simp only [_col_bounds_so_far]
  split <;> simp_all <;> omega

lemma col_bounds_eq_some (ts tb ps pb rl : ℤ) (h : ¬ (tb - pb < 0 ∨ rl < tb - pb)) :
    _col_bounds_so_far ts tb ps pb rl =
      some (ps + (rl - (tb - pb)) * 1, ps + (rl - (tb - pb)) * 3) := by
  simp only [_col_bounds_so_far]
  rw [if_neg h]

lemma map_range5_getD (l : List ℤ) (h : l.length = 5) :
    (List.range 5).map (fun c => l.getD c 0) = l := by
  apply List.ext_getElem
  · simpa using h.symm
  · intro n h1 h2
    rw [List.getElem_map, List.getElem_range, List.getD_eq_getElem l 0 (by omega)]

lemma gridOut_stGrid (opened : OpenedMap) (placed : List Pattern)
    (h5 : placed.length = 5) (hrows : ∀ row ∈ placed, row.length = 5) :
    gridOut (stGrid opened placed) = placed := by
  apply List.ext_getElem
  · simp [gridOut, h5]
  · intro n h1 h2
    simp only [gridOut, List.length_map, List.length_range] at h1
    simp only [gridOut]
    rw [List.getElem_map, List.getElem_range]
    have hst : ∀ c, stGrid opened placed n c = some ((placed.getD n []).getD c 0) :=
      fun c => stGrid_lt opened placed n c (by omega)
    rw [List.map_congr_left (fun c _ => by rw [hst c, Option.getD_some])]
    have hgd : placed.getD n [] = placed[n] := List.getD_eq_getElem placed [] (by omega)
    rw [map_range5_getD _ (by rw [hgd]; exact hrows _ (placed.getElem_mem _)), hgd]

/-- The rows `rest` (starting at row `r0`) were all chosen from the
precomputed per-row pattern lists. -/
def ChosenFrom (row_pats : ℕ → List Pattern) (r0 : ℕ) (rest : List Pattern) : Prop :=
  ∀ i (hi : i < rest.length), rest.get ⟨i, hi⟩ ∈ row_pats (r0 + i)

lemma ChosenFrom_nil (row_pats : ℕ → List Pattern) (r0 : ℕ) : ChosenFrom row_pats r0 [] := by
  intro i hi
  simp at hi

lemma ChosenFrom_cons_iff (row_pats : ℕ → List Pattern) (r0 : ℕ) (row : Pattern)
    (rest : List Pattern) :
    ChosenFrom row_pats r0 (row :: rest) ↔
      row ∈ row_pats r0 ∧ ChosenFrom row_pats (r0 + 1) rest := by
  constructor
  · intro h
    refine ⟨by simpa using h 0 (by simp), ?_⟩
    intro i hi
    have := h (i + 1) (by simpa using hi)
    simpa [Nat.add_assoc, Nat.add_comm 1 i] using this
  · rintro ⟨h0, h⟩
    intro i hi
    match i with
    | 0 => simpa using h0
    | i + 1 =>
      have := h i (by simpa using hi)
      simpa [Nat.add_assoc, Nat.add_comm 1 i] using this

lemma RowsOK_of_ChosenFrom (row_pats : ℕ → List Pattern) (opened : OpenedMap)
    (hp : ∀ r, r < 5 → ∀ p ∈ row_pats r, p.length = 5 ∧
        agreeB p (row_fixed r opened) = true ∧ freeOkB p (row_fixed r opened) = true)
    (r0 : ℕ) (rest : List Pattern) (h5 : r0 + rest.length ≤ 5)
    (hch : ChosenFrom row_pats r0 rest) : RowsOK opened r0 rest := by
  intro i hi
  exact hp (r0 + i) (by omega) _ (hch i hi)

lemma colCheck_of_valid (opened : OpenedMap) (col_sums col_bombs : ℕ → ℤ)
    (placed2 rest : List Pattern) (r : ℕ)
    (hp2 : placed2.length = r + 1) (hlen : placed2.length + rest.length = 5)
    (hrows : RowsOK opened placed2.length rest)
    (hfinal : ∀ c, c < 5 → stColSum opened (placed2 ++ rest) c = col_sums c ∧
        stColBz opened (placed2 ++ rest) c = col_bombs c) :
    colCheck col_sums col_bombs (stColSum opened placed2) (stColBz opened placed2)
      (stGrid opened placed2) r = true := by
  rw [colCheck, List.all_eq_true]
  intro c hcmem
  rw [List.mem_range] at hcmem
  have hsum := (hfinal c hcmem).1
  have hbz := (hfinal c hcmem).2
  rw [stColSum_append opened rest placed2 c hcmem (le_of_eq hlen) hrows] at hsum
  rw [stColBz_append opened rest placed2 c hcmem (le_of_eq hlen) hrows] at hbz
  have hbounds := freeCol_bounds opened rest placed2.length c hcmem hrows
  have hcount := freeColCount_eq opened rest placed2.length c hlen
  have hrl := rowsLeftFor_stGrid opened placed2 r c hp2
  rw [hp2] at hcount hsum hbz hbounds
  rw [← hcount] at hrl
  rw [hrl]
  rw [col_bounds_eq_some _ _ _ _ _ (by omega)]
  simp only [Bool.and_eq_true, decide_eq_true_eq]
  constructor
  · omega
  · omega

lemma final_check_iff (col_sums col_bombs colSum colBz : ℕ → ℤ) :
    ((List.range 5).all (fun c => colSum c == col_sums c && colBz c == col_bombs c) = true) ↔
      (∀ c, c < 5 → colSum c = col_sums c ∧ colBz c = col_bombs c) := by
  rw [List.all_eq_true]
  constructor
  · intro h c hc
    have := h c (List.mem_range.mpr hc)
    simpa [Bool.and_eq_true, beq_iff_eq] using this
  · intro h c hc
    rw [List.mem_range] at hc
    simpa [Bool.and_eq_true, beq_iff_eq] using h c hc

/-- Exactness of the board backtracking, relative to the partial state reached
after committing `placed`: the produced boards are exactly `placed` extended by
one choice of pattern per remaining row such that the final column sums and
bomb counts hit their targets.  In particular the column prune and the
defensive agreement check never drop such an extension. -/
lemma dfs_row_spec (row_pats : ℕ → List Pattern) (col_sums col_bombs : ℕ → ℤ)
    (opened : OpenedMap)
    (hp : ∀ r, r < 5 → ∀ p ∈ row_pats r, p.length = 5 ∧
        agreeB p (row_fixed r opened) = true ∧ freeOkB p (row_fixed r opened) = true) :
    ∀ (fuel : ℕ) (placed : List Pattern), placed.length + fuel = 5 →
      (∀ row ∈ placed, row.length = 5) →
      ∀ g, g ∈ dfs_row row_pats col_sums col_bombs fuel placed.length
              (stColSum opened placed) (stColBz opened placed) (stGrid opened placed) ↔
        ∃ rest : List Pattern, rest.length = fuel ∧
          ChosenFrom row_pats placed.length rest ∧
          g = placed ++ rest ∧
          (∀ c, c < 5 → stColSum opened (placed ++ rest) c = col_sums c ∧
              stColBz opened (placed ++ rest) c = col_bombs c) := by
  intro fuel
  induction fuel with
  | zero =>
    intro placed hlen hrows g
    have h5 : placed.length = 5 := by omega
    rw [dfs_row.eq_def]
    rw [if_pos h5]
    constructor
    · intro hmem
      rw [mem_ite_nil] at hmem
      obtain ⟨hall, hg⟩ := hmem
      simp only [List.mem_singleton] at hg
      subst hg
      refine ⟨[], rfl, ChosenFrom_nil _ _, ?_, ?_⟩
      · rw [List.append_nil, gridOut_stGrid opened placed h5 hrows]
      · rw [List.append_nil]
        exact (final_check_iff col_sums col_bombs _ _).mp hall
    · rintro ⟨rest, hr0, -, rfl, hfinal⟩
      rw [List.length_eq_zero] at hr0
      subst hr0
      rw [mem_ite_nil]
      rw [List.append_nil] at hfinal ⊢
      refine ⟨(final_check_iff col_sums col_bombs _ _).mpr hfinal, ?_⟩
      rw [gridOut_stGrid opened placed h5 hrows]
      exact List.mem_singleton.mpr rfl
  | succ fuel2 ih =>
    intro placed hlen hrows g
    have hr5 : placed.length < 5 := by omega
    rw [dfs_row.eq_def]
    rw [if_neg (by omega)]
    rw [List.mem_flatMap]
    constructor
    · rintro ⟨pat, hpat, hmem⟩
      rw [mem_ite_nil] at hmem
      obtain ⟨-, hmem⟩ := hmem
      rw [mem_ite_nil] at hmem
      obtain ⟨-, hmem⟩ := hmem
      obtain ⟨hl5, -, -⟩ := hp placed.length hr5 pat hpat
      rw [← stColSum_snoc opened placed pat hr5, ← stColBz_snoc opened placed pat hr5,
        ← stGrid_snoc opened placed pat] at hmem
      have hlen2 : (placed ++ [pat]).length + fuel2 = 5 := by
        simp only [List.length_append, List.length_singleton]
        omega
      have hrows2 : ∀ row ∈ placed ++ [pat], row.length = 5 := by
        intro row hrow
        rcases List.mem_append.mp hrow with h | h
        · exact hrows row h
        · rw [List.mem_singleton] at h
          subst h
          exact hl5
      have hlen' : (placed ++ [pat]).length = placed.length + 1 := by
        simp
      rw [← hlen'] at hmem
      obtain ⟨rest2, hr2, hch2, hg2, hfin2⟩ := (ih (placed ++ [pat]) hlen2 hrows2 g).mp hmem
      refine ⟨pat :: rest2, by simpa using hr2, ?_, ?_, ?_⟩
      · rw [ChosenFrom_cons_iff]
        refine ⟨hpat, ?_⟩
        rw [hlen'] at hch2
        exact hch2
      · rw [hg2]
        simp
      · intro c hc
        have := hfin2 c hc
        rwa [List.append_assoc, List.singleton_append] at this
    · rintro ⟨rest, hrl, hch, rfl, hfinal⟩
      match rest, hrl with
      | pat :: rest2, hrl =>
        obtain ⟨hpat, hch2⟩ := (ChosenFrom_cons_iff _ _ _ _).mp hch
        obtain ⟨hl5, hag, hok⟩ := hp placed.length hr5 pat hpat
        refine ⟨pat, hpat, ?_⟩
        rw [mem_ite_nil]
        refine ⟨patFits_stGrid opened placed pat hag hl5, ?_⟩
        rw [mem_ite_nil]
        have hassoc : placed ++ pat :: rest2 = (placed ++ [pat]) ++ rest2 := by simp
        have hlen2 : (placed ++ [pat]).length + fuel2 = 5 := by
          simp only [List.length_append, List.length_singleton]
          simp only [List.length_cons] at hrl
          omega
        have hrows2 : ∀ row ∈ placed ++ [pat], row.length = 5 := by
          intro row hrow
          rcases List.mem_append.mp hrow with h | h
          · exact hrows row h
          · rw [List.mem_singleton] at h
            subst h
            exact hl5
        have hlen' : (placed ++ [pat]).length = placed.length + 1 := by simp
        have hfinal2 : ∀ c, c < 5 →
            stColSum opened ((placed ++ [pat]) ++ rest2) c = col_sums c ∧
            stColBz opened ((placed ++ [pat]) ++ rest2) c = col_bombs c := by
          intro c hc
          rw [← hassoc]
          exact hfinal c hc
        have hsum5 : (placed ++ [pat]).length + rest2.length = 5 := by
          simp only [List.length_append, List.length_singleton]
          simp only [List.length_cons] at hrl
          omega
        constructor
        · rw [← stColSum_snoc opened placed pat hr5, ← stColBz_snoc opened placed pat hr5,
            ← stGrid_snoc opened placed pat]
          exact colCheck_of_valid opened col_sums col_bombs (placed ++ [pat]) rest2
            placed.length hlen' hsum5
            (RowsOK_of_ChosenFrom row_pats opened hp _ rest2 (le_of_eq hsum5)
              (by rw [hlen']; exact hch2))
            hfinal2
        · rw [← stColSum_snoc opened placed pat hr5, ← stColBz_snoc opened placed pat hr5,
            ← stGrid_snoc opened placed pat, ← hlen']
          refine (ih (placed ++ [pat]) hlen2 hrows2 (placed ++ pat :: rest2)).mpr ?_
          refine ⟨rest2, by simp only [List.length_cons] at hrl; omega, ?_, hassoc, hfinal2⟩
          rw [hlen']
          exact hch2

/-- The board search never produces the same board twice: distinct pattern
choices at any row give boards differing in that row. -/
lemma dfs_row_nodup (row_pats : ℕ → List Pattern) (col_sums col_bombs : ℕ → ℤ)
    (opened : OpenedMap)
    (hp : ∀ r, r < 5 → ∀ p ∈ row_pats r, p.length = 5 ∧
        agreeB p (row_fixed r opened) = true ∧ freeOkB p (row_fixed r opened) = true)
    (hnd : ∀ r, r < 5 → (row_pats r).Nodup) :
    ∀ (fuel : ℕ) (placed : List Pattern), placed.length + fuel = 5 →
      (∀ row ∈ placed, row.length = 5) →
      (dfs_row row_pats col_sums col_bombs fuel placed.length
        (stColSum opened placed) (stColBz opened placed) (stGrid opened placed)).Nodup := by
  intro fuel
  induction fuel with
  | zero =>
    intro placed hlen hrows
    rw [dfs_row.eq_def, if_pos (by omega : placed.length = 5)]
    split
    · exact List.nodup_singleton _
    · exact List.nodup_nil
  | succ fuel2 ih =>
    intro placed hlen hrows
    have hr5 : placed.length < 5 := by omega
    rw [dfs_row.eq_def, if_neg (by omega)]
    rw [List.nodup_flatMap]
    have hbody : ∀ pat ∈ row_pats placed.length, ∀ g,
        g ∈ (if patFits (stGrid opened placed) placed.length pat = true then
          if colCheck col_sums col_bombs
              (bumpSum (stColSum opened placed) (stGrid opened placed) placed.length pat)
              (bumpBz (stColBz opened placed) (stGrid opened placed) placed.length pat)
              (applyPat (stGrid opened placed) placed.length pat) placed.length = true then
            dfs_row row_pats col_sums col_bombs fuel2 (placed.length + 1)
              (bumpSum (stColSum opened placed) (stGrid opened placed) placed.length pat)
              (bumpBz (stColBz opened placed) (stGrid opened placed) placed.length pat)
              (applyPat (stGrid opened placed) placed.length pat)
          else [] else []) →
        ∃ rest, g = placed ++ pat :: rest := by
      intro pat hpat g hg
      rw [mem_ite_nil] at hg
      obtain ⟨-, hg⟩ := hg
      rw [mem_ite_nil] at hg
      obtain ⟨-, hg⟩ := hg
      obtain ⟨hl5, -, -⟩ := hp placed.length hr5 pat hpat
      rw [← stColSum_snoc opened placed pat hr5, ← stColBz_snoc opened placed pat hr5,
        ← stGrid_snoc opened placed pat,
        ← (by simp : (placed ++ [pat]).length = placed.length + 1)] at hg
      have hlen2 : (placed ++ [pat]).length + fuel2 = 5 := by
        simp only [List.length_append, List.length_singleton]
        omega
      have hrows2 : ∀ row ∈ placed ++ [pat], row.length = 5 := by
        intro row hrow
        rcases List.mem_append.mp hrow with h | h
        · exact hrows row h
        · rw [List.mem_singleton] at h
          subst h
          exact hl5
      obtain ⟨rest2, -, -, hg2, -⟩ :=
        (dfs_row_spec row_pats col_sums col_bombs opened hp fuel2 (placed ++ [pat])
          hlen2 hrows2 g).mp hg
      exact ⟨rest2, by rw [hg2]; simp⟩
    constructor
    · intro pat hpat
      split
      · split
        · obtain ⟨hl5, -, -⟩ := hp placed.length hr5 pat hpat
          rw [← stColSum_snoc opened placed pat hr5, ← stColBz_snoc opened placed pat hr5,
            ← stGrid_snoc opened placed pat,
            ← (by simp : (placed ++ [pat]).length = placed.length + 1)]
          have hlen2 : (placed ++ [pat]).length + fuel2 = 5 := by
            simp only [List.length_append, List.length_singleton]
            omega
          refine ih (placed ++ [pat]) hlen2 ?_
          intro row hrow
          rcases List.mem_append.mp hrow with h | h
          · exact hrows row h
          · rw [List.mem_singleton] at h
            subst h
            exact hl5
        · exact List.nodup_nil
      · exact List.nodup_nil
    · refine List.Pairwise.imp_of_mem ?_ (hnd placed.length hr5)
      intro pat1 pat2 h1mem h2mem hne
      intro g hg1 hg2
      obtain ⟨rest1, hrest1⟩ := hbody pat1 h1mem g hg1
      obtain ⟨rest2, hrest2⟩ := hbody pat2 h2mem g hg2
      rw [hrest1] at hrest2
      have hcc := List.append_cancel_left hrest2
      injection hcc with hh _
      exact hne hh

/-- The per-row well-formedness facts that every pattern produced by
`_enumerate_row_patterns` enjoys. -/
lemma row_patterns_wf (rs rb cs cb : ℕ → ℤ) (opened : OpenedMap) :
    ∀ r, r < 5 → ∀ p ∈ _enumerate_row_patterns r rs rb cs cb opened,
      p.length = 5 ∧ agreeB p (row_fixed r opened) = true ∧
      freeOkB p (row_fixed r opened) = true := by
  intro r _ p hp
  obtain ⟨h1, h2, h3, -, -⟩ := (mem_enumerate_row_patterns r rs rb cs cb opened p).mp hp
  exact ⟨h1, h2, h3⟩

/-- Membership characterization of `_enumerate_all_boards` in terms of
row-pattern choices and exact column constraints. -/
lemma mem_enumerate_all_boards (rs rb cs cb : ℕ → ℤ) (opened : OpenedMap) (g : Grid) :
    g ∈ _enumerate_all_boards rs rb cs cb opened ↔
      ∃ rows : List Pattern, rows.length = 5 ∧
        ChosenFrom (fun r => _enumerate_row_patterns r rs rb cs cb opened) 0 rows ∧
        g = rows ∧
        (∀ c, c < 5 → stColSum opened rows c = cs c ∧ stColBz opened rows c = cb c) := by
  rw [_enumerate_all_boards]
  split
  · rename_i hany
    rw [List.any_eq_true] at hany
    obtain ⟨r, hrmem, hempty⟩ := hany
    rw [List.mem_range] at hrmem
    rw [List.isEmpty_iff] at hempty
    simp only [List.not_mem_nil, false_iff]
    rintro ⟨rows, h5, hch, rfl, -⟩
    have hh := hch r (by omega)
    simp only [Nat.zero_add] at hh
    rw [hempty] at hh
    exact List.not_mem_nil _ hh
  · rename_i hany
    have hst : dfs_row (fun r => _enumerate_row_patterns r rs rb cs cb opened) cs cb 5 0
        (colSumInit opened) (colBzInit opened) (gridInit opened) =
        dfs_row (fun r => _enumerate_row_patterns r rs rb cs cb opened) cs cb 5
          (List.length ([] : List Pattern)) (stColSum opened []) (stColBz opened [])
          (stGrid opened []) := by
      rw [stColSum_nil, stColBz_nil, stGrid_nil]
      rfl
    rw [hst]
    rw [dfs_row_spec (fun r => _enumerate_row_patterns r rs rb cs cb opened) cs cb opened
      (row_patterns_wf rs rb cs cb opened) 5 [] (by simp) (by simp) g]
    constructor
    · rintro ⟨rest, h5, hch, hg, hfin⟩
      exact ⟨rest, h5, hch, by simpa using hg, fun c hc => by simpa using hfin c hc⟩
    · rintro ⟨rows, h5, hch, hg, hfin⟩
      exact ⟨rows, h5, hch, by simpa using hg, fun c hc => by simpa using hfin c hc⟩

lemma enumerate_all_boards_nodup (rs rb cs cb : ℕ → ℤ) (opened : OpenedMap) :
    (_enumerate_all_boards rs rb cs cb opened).Nodup := by
  rw [_enumerate_all_boards]
  split
  · exact List.nodup_nil
  · have hst : dfs_row (fun r => _enumerate_row_patterns r rs rb cs cb opened) cs cb 5 0
        (colSumInit opened) (colBzInit opened) (gridInit opened) =
        dfs_row (fun r => _enumerate_row_patterns r rs rb cs cb opened) cs cb 5
          (List.length ([] : List Pattern)) (stColSum opened []) (stColBz opened [])
          (stGrid opened []) := by
      rw [stColSum_nil, stColBz_nil, stGrid_nil]
      rfl
    rw [hst]
    exact dfs_row_nodup (fun r => _enumerate_row_patterns r rs rb cs cb opened) cs cb opened
      (row_patterns_wf rs rb cs cb opened)
      (fun r _ => enumerate_row_patterns_nodup r rs rb cs cb opened) 5 [] (by simp) (by simp)

/-! ### The board specification in the claim's vocabulary -/

/-- Value of cell `(r, c)` of a board. -/
def cellOf (g : Grid) (r c : ℕ) : ℤ := (g.getD r []).getD c 0

/-- Column `c` of a board as a list. -/
def colList (g : Grid) (c : ℕ) : List ℤ := g.map (fun row => row.getD c 0)

/-- Sum of the non-bomb values of a line (bombs are the zeros). -/
def lineNonBombSum (l : List ℤ) : ℤ := (l.filter (fun v => v ≠ 0)).sum

/-- Number of bombs (zeros) of a line. -/
def lineBombs (l : List ℤ) : ℕ := l.count 0

/-- `g` is a legal completion of the puzzle: a 5×5 grid over `{0,1,2,3}`
whose rows and columns meet their non-bomb sums and bomb counts exactly,
and which agrees with every revealed cell. -/
def ValidBoard (rs rb csums cbombs : ℕ → ℤ) (opened : OpenedMap) (g : Grid) : Prop :=
  g.length = 5 ∧ (∀ row ∈ g, row.length = 5) ∧
  (∀ r c, r < 5 → c < 5 →
    cellOf g r c = 0 ∨ cellOf g r c = 1 ∨ cellOf g r c = 2 ∨ cellOf g r c = 3) ∧
  (∀ r, r < 5 → lineNonBombSum (g.getD r []) = rs r ∧ (lineBombs (g.getD r []) : ℤ) = rb r) ∧
  (∀ c, c < 5 → lineNonBombSum (colList g c) = csums c ∧
    (lineBombs (colList g c) : ℤ) = cbombs c) ∧
  (∀ r c v, r < 5 → c < 5 → opened r c = some v → cellOf g r c = v)

lemma filter_ne_zero_sum : ∀ (l : List ℤ), (l.filter (fun v => v ≠ 0)).sum = l.sum := by
  intro l
  induction l with
  | nil => rfl
  | cons x l ih =>
    rw [List.filter_cons]
    by_cases hx : x = 0
    · subst hx
      simpa using ih
    · simp only [hx, ne_eq, not_false_eq_true, decide_True, if_true, List.sum_cons, ih]

lemma lineNonBombSum_eq_sum (l : List ℤ) : lineNonBombSum l = l.sum := by
  rw [lineNonBombSum]
  exact filter_ne_zero_sum l

lemma agreeB_of_getD : ∀ (f : List (Option ℤ)) (p : Pattern), p.length = f.length →
    (∀ i w, f.getD i none = some w → p.getD i 0 = w) → agreeB p f = true := by
  intro f
  induction f with
  | nil =>
    intro p hlen _
    rw [List.length_nil, List.length_eq_zero] at hlen
    subst hlen
    rfl
  | cons x f ih =>
    intro p hlen h
    match x, p with
    | some u, [] => simp at hlen
    | none, [] => simp at hlen
    | some u, v :: p =>
      simp only [agreeB, Bool.and_eq_true, beq_iff_eq]
      refine ⟨by simpa using h 0 u (by rw [List.getD_cons_zero]), ?_⟩
      refine ih p (by simpa using hlen) ?_
      intro i w hw
      have := h (i + 1) w (by rwa [List.getD_cons_succ])
      rwa [List.getD_cons_succ] at this
    | none, v :: p =>
      simp only [agreeB]
      refine ih p (by simpa using hlen) ?_
      intro i w hw
      have := h (i + 1) w (by rwa [List.getD_cons_succ])
      rwa [List.getD_cons_succ] at this

lemma freeOkB_of_getD : ∀ (f : List (Option ℤ)) (p : Pattern), p.length = f.length →
    (∀ i, f.getD i none = none → 0 ≤ p.getD i 0 ∧ p.getD i 0 ≤ 3) → freeOkB p f = true := by
  intro f
  induction f with
  | nil =>
    intro p hlen _
    rw [List.length_nil, List.length_eq_zero] at hlen
    subst hlen
    rfl
  | cons x f ih =>
    intro p hlen h
    match x, p with
    | some u, [] => simp at hlen
    | none, [] => simp at hlen
    | some u, v :: p =>
      simp only [freeOkB]
      refine ih p (by simpa using hlen) ?_
      intro i hw
      have := h (i + 1) (by rwa [List.getD_cons_succ])
      rwa [List.getD_cons_succ] at this
    | none, v :: p =>
      simp only [freeOkB, Bool.and_eq_true, decide_eq_true_eq]
      have h0 := h 0 (by rw [List.getD_cons_zero])
      rw [List.getD_cons_zero] at h0
      refine ⟨⟨h0.1, h0.2⟩, ?_⟩
      refine ih p (by simpa using hlen) ?_
      intro i hw
      have := h (i + 1) (by rwa [List.getD_cons_succ])
      rwa [List.getD_cons_succ] at this

lemma row_fixed_getD_ge (r i : ℕ) (opened : OpenedMap) (hi : 5 ≤ i) :
    (row_fixed r opened).getD i none = none := by
  rw [List.getD_eq_getElem?_getD, List.getElem?_eq_none (by simpa using hi)]
  rfl

lemma stColSum_full (opened : OpenedMap) (rows : List Pattern) (c : ℕ)
    (h : rows.length = 5) :
    stColSum opened rows c = (rows.map (fun row => row.getD c 0)).sum := by
  rw [stColSum, h, List.drop_eq_nil_of_le (by simp)]
  simp

lemma stColBz_full (opened : OpenedMap) (rows : List Pattern) (c : ℕ)
    (h : rows.length = 5) :
    stColBz opened rows c = ((rows.countP (fun row => row.getD c 0 == 0)) : ℤ) := by
  rw [stColBz, h, List.drop_eq_nil_of_le (by simp)]
  simp

lemma lineBombs_colList (g : Grid) (c : ℕ) :
    lineBombs (colList g c) = g.countP (fun row => row.getD c 0 == 0) := by
  rw [lineBombs, colList, List.count, List.countP_map]
  congr 1

lemma getD_out_of_range (p : Pattern) (i : ℕ) (h : p.length ≤ i) : p.getD i 0 = 0 := by
  rw [List.getD_eq_getElem?_getD, List.getElem?_eq_none h]
  rfl

/-- Exactness of `_enumerate_all_boards`: under the data-model precondition
that revealed values lie in `{0,1,2,3}`, a grid is produced iff it is a
`ValidBoard`. -/
lemma mem_boards_iff_valid (rs rb csums cbombs : ℕ → ℤ) (opened : OpenedMap)
    (hov : ∀ r c v, r < 5 → c < 5 → opened r c = some v → 0 ≤ v ∧ v ≤ 3) (g : Grid) :
    g ∈ _enumerate_all_boards rs rb csums cbombs opened ↔
      ValidBoard rs rb csums cbombs opened g := by
  rw [mem_enumerate_all_boards]
  constructor
  · rintro ⟨rows, h5, hch, rfl, hcols⟩
    have hrowmem : ∀ r, r < 5 →
        g.getD r [] ∈ _enumerate_row_patterns r rs rb csums cbombs opened := by
      intro r hr
      have hh := hch r (by omega)
      rw [List.get_eq_getElem] at hh
      rw [List.getD_eq_getElem g [] (by omega)]
      simpa using hh
    have hprops : ∀ r, r < 5 →
        (g.getD r []).length = 5 ∧
        agreeB (g.getD r []) (row_fixed r opened) = true ∧
        freeOkB (g.getD r []) (row_fixed r opened) = true ∧
        (g.getD r []).sum = rs r ∧ ((g.getD r []).count 0 : ℤ) = rb r :=
      fun r hr => (mem_enumerate_row_patterns r rs rb csums cbombs opened _).mp (hrowmem r hr)
    refine ⟨h5, ?_, ?_, ?_, ?_, ?_⟩
    · intro row hrow
      obtain ⟨i, hi, rfl⟩ := List.mem_iff_getElem.mp hrow
      rw [← List.getD_eq_getElem g [] hi]
      exact (hprops i (by omega)).1
    · intro r c hr hc
      obtain ⟨hl, hag, hok, -, -⟩ := hprops r hr
      rw [cellOf]
      cases hop : opened r c with
      | none =>
        have := freeOkB_getD _ _ hok (by simpa using hl) c
          (by rw [row_fixed_getD _ _ _ hc, hop])
        omega
      | some v =>
        have hcv := agreeB_getD _ _ hag (by simpa using hl) c v
          (by rw [row_fixed_getD _ _ _ hc, hop])
        have := hov r c v hr hc hop
        omega
    · intro r hr
      obtain ⟨-, -, -, hsum, hz⟩ := hprops r hr
      rw [lineNonBombSum_eq_sum]
      exact ⟨hsum, hz⟩
    · intro c hc
      have h1 := (hcols c hc).1
      have h2 := (hcols c hc).2
      rw [stColSum_full opened g c h5] at h1
      rw [stColBz_full opened g c h5] at h2
      constructor
      · rw [lineNonBombSum_eq_sum, colList]
        exact h1
      · rw [lineBombs_colList]
        exact h2
    · intro r c v hr hc hop
      obtain ⟨hl, hag, -, -, -⟩ := hprops r hr
      rw [cellOf]
      exact agreeB_getD _ _ hag (by simpa using hl) c v
        (by rw [row_fixed_getD _ _ _ hc, hop])
  · rintro ⟨h5, hlens, hcell, hrows, hcols, hagree⟩
    refine ⟨g, h5, ?_, rfl, ?_⟩
    · intro i hi
      have hi5 : i < 5 := by omega
      have hgd : g.getD i [] = g.get ⟨i, hi⟩ := by
        rw [List.getD_eq_getElem g [] (by omega), List.get_eq_getElem]
      have hplen : (g.getD i []).length = 5 := by
        rw [hgd]
        exact hlens _ (List.get_mem g i hi)
      simp only [Nat.zero_add]
      rw [← hgd]
      refine (mem_enumerate_row_patterns i rs rb csums cbombs opened _).mpr
        ⟨hplen, ?_, ?_, ?_, ?_⟩
      · refine agreeB_of_getD _ _ (by simpa using hplen) ?_
        intro j w hw
        by_cases hj : j < 5
        · rw [row_fixed_getD _ _ _ hj] at hw
          exact hagree i j w hi5 hj hw
        · rw [row_fixed_getD_ge _ _ _ (by omega)] at hw
          exact Option.noConfusion hw
      · refine freeOkB_of_getD _ _ (by simpa using hplen) ?_
        intro j _
        by_cases hj : j < 5
        · have := hcell i j hi5 hj
          rw [cellOf] at this
          omega
        · rw [getD_out_of_range _ _ (by omega)]
          omega
      · rw [← lineNonBombSum_eq_sum]
        exact (hrows i hi5).1
      · exact (hrows i hi5).2
    · intro c hc
      have h1 := (hcols c hc).1
      have h2 := (hcols c hc).2
      rw [lineNonBombSum_eq_sum, colList] at h1
      rw [lineBombs_colList] at h2
      rw [stColSum_full opened g c h5, stColBz_full opened g c h5]
      exact ⟨h1, h2⟩

/-! ### Concrete inputs used by the witnesses -/

/-- The puzzle whose five row sums and column sums are all 15 with no bombs. -/
def sum15 : ℕ → ℤ := fun _ => 15

/-- All-zero line targets. -/
def zero5 : ℕ → ℤ := fun _ => 0

/-- No revealed cells. -/
def openedEmpty : OpenedMap := fun _ _ => none

/-- The unique solution of the `sum15`/`zero5` puzzle. -/
def allThrees : Grid :=
  [[3, 3, 3, 3, 3], [3, 3, 3, 3, 3], [3, 3, 3, 3, 3], [3, 3, 3, 3, 3], [3, 3, 3, 3, 3]]

/-! ### Claim theorems C1 and C2 -/

/-- C1: Exactness of board enumeration.  For every input whose revealed values
lie in `{0,1,2,3}` (coordinates in `[0,5)` being the domain of the map),
`_enumerate_all_boards` returns exactly the 5×5 grids over `{0,1,2,3}` whose
every row has bomb count `row_bombs r` and non-bomb sum `row_sums r`, whose
every column has bomb count `col_bombs c` and non-bomb sum `col_sums c`, and
which agree with `opened` at every revealed coordinate — with no duplicates,
so each such grid appears exactly once in the returned list. -/
theorem C1_enumerate_all_boards_exact (row_sums row_bombs col_sums col_bombs : ℕ → ℤ)
    (opened : OpenedMap)
    (hov : ∀ r c v, r < 5 → c < 5 → opened r c = some v → 0 ≤ v ∧ v ≤ 3) :
    (∀ g : Grid, g ∈ _enumerate_all_boards row_sums row_bombs col_sums col_bombs opened ↔
      ValidBoard row_sums row_bombs col_sums col_bombs opened g) ∧
    (_enumerate_all_boards row_sums row_bombs col_sums col_bombs opened).Nodup ∧
    (∀ g : Grid, ValidBoard row_sums row_bombs col_sums col_bombs opened g →
      (_enumerate_all_boards row_sums row_bombs col_sums col_bombs opened).count g = 1) := by
  refine ⟨fun g => mem_boards_iff_valid row_sums row_bombs col_sums col_bombs opened hov g,
    enumerate_all_boards_nodup row_sums row_bombs col_sums col_bombs opened, ?_⟩
  intro g hg
  have hone := List.count_eq_one_of_mem
    (enumerate_all_boards_nodup row_sums row_bombs col_sums col_bombs opened)
    ((mem_boards_iff_valid row_sums row_bombs col_sums col_bombs opened hov g).mpr hg)
  rw [List.count_eq_countP]
  rw [@List.count_eq_countP Grid instBEqOfDecidableEq] at hone
  rw [← hone]
  apply List.countP_congr
  intro x _
  simp only [beq_iff_eq]

theorem C1_enumerate_all_boards_exact_witness :
    ValidBoard sum15 zero5 sum15 zero5 openedEmpty allThrees ∧
    (_enumerate_all_boards sum15 zero5 sum15 zero5 openedEmpty).count allThrees = 1 := by
  have h := C1_enumerate_all_boards_exact sum15 zero5 sum15 zero5 openedEmpty
    (fun r c v _ _ hcon => Option.noConfusion hcon)
  have hv : ValidBoard sum15 zero5 sum15 zero5 openedEmpty allThrees :=
    (h.1 allThrees).mp (by decide)
  exact ⟨hv, h.2.2 allThrees hv⟩

/-- C2: the `_col_bounds_so_far` contract.  It returns `none` exactly when
`target_bombs - partial_bombs` is negative or exceeds `rows_left`; otherwise,
with `nonbomb_left = rows_left - (target_bombs - partial_bombs)`, it returns
`(partial_sum + nonbomb_left*1, partial_sum + nonbomb_left*3)`. -/
theorem C2_col_bounds_contract (targetSum targetBombs partialSum partialBombs rowsLeft : ℤ) :
    (_col_bounds_so_far targetSum targetBombs partialSum partialBombs rowsLeft = none ↔
      (targetBombs - partialBombs < 0 ∨ rowsLeft < targetBombs - partialBombs)) ∧
    (¬ (targetBombs - partialBombs < 0 ∨ rowsLeft < targetBombs - partialBombs) →
      _col_bounds_so_far targetSum targetBombs partialSum partialBombs rowsLeft =
        some (partialSum + (rowsLeft - (targetBombs - partialBombs)) * 1,
              partialSum + (rowsLeft - (targetBombs - partialBombs)) * 3)) :=
  ⟨col_bounds_eq_none_iff targetSum targetBombs partialSum partialBombs rowsLeft,
   col_bounds_eq_some targetSum targetBombs partialSum partialBombs rowsLeft⟩

theorem C2_col_bounds_contract_witness :
    _col_bounds_so_far 10 2 4 1 3 = some (4 + (3 - (2 - 1)) * 1, 4 + (3 - (2 - 1)) * 3) ∧
    _col_bounds_so_far 10 0 4 1 3 = none :=
  ⟨(C2_col_bounds_contract 10 2 4 1 3).2 (by decide),
   (C2_col_bounds_contract 10 0 4 1 3).1.mpr (by decide)⟩

/-! ### Posterior computation (`compute_posteriors`) and the recommender -/

/-- Posterior record of one unrevealed cell: board tally, exact probabilities
of the four values, and expected value. -/
structure PosteriorRecord where
  total : ℕ
  p0 : ℚ
  p1 : ℚ
  p2 : ℚ
  p3 : ℚ
  ev : ℚ
deriving DecidableEq, Repr

/-- `targets`: unrevealed coordinates in row-major order
(`[(r, c) for r in range(N) for c in range(N) if (r, c) not in opened]`). -/
def targetsList (opened : OpenedMap) : List (ℕ × ℕ) :=
  (List.range 5).flatMap (fun r =>
    ((List.range 5).filter (fun c => (opened r c).isNone)).map (fun c => (r, c)))

/-- `counts[rc][v]`: how many solution boards put value `v` at `rc`. -/
def tally (sols : List Grid) (rc : ℕ × ℕ) (v : ℤ) : ℕ :=
  sols.countP (fun g => cellOf g rc.1 rc.2 == v)

/-- Building one entry of the posterior map (the `tot == 0` branch mirrors
the defensive `continue` of the source). -/
def mkRecord (sols : List Grid) (rc : ℕ × ℕ) : Option ((ℕ × ℕ) × PosteriorRecord) :=
  let d0 := tally sols rc 0
  let d1 := tally sols rc 1
  let d2 := tally sols rc 2
  let d3 := tally sols rc 3
  let tot := d0 + d1 + d2 + d3
  if tot = 0 then none
  else some (rc,
    { total := tot
      p0 := (d0 : ℚ) / (tot : ℚ)
      p1 := (d1 : ℚ) / (tot : ℚ)
      p2 := (d2 : ℚ) / (tot : ℚ)
      p3 := (d3 : ℚ) / (tot : ℚ)
      ev := 1 * ((d1 : ℚ) / (tot : ℚ)) + 2 * ((d2 : ℚ) / (tot : ℚ)) +
        3 * ((d3 : ℚ) / (tot : ℚ)) })

/-- `compute_posteriors`: the posterior map (as an insertion-ordered
association list, matching the Python dict's iteration order) and the number
of solution boards. -/
def compute_posteriors (row_sums row_bombs col_sums col_bombs : ℕ → ℤ)
    (opened : OpenedMap) : List ((ℕ × ℕ) × PosteriorRecord) × ℕ :=
  let sols := _enumerate_all_boards row_sums row_bombs col_sums col_bombs opened
  if sols.isEmpty then ([], 0)
  else ((targetsList opened).filterMap (mkRecord sols), sols.length)

/-- The sort key of `choose_next_safest`: `(p[0], -ev)`. -/
def keyOf (rec : PosteriorRecord) : ℚ × ℚ := (rec.p0, -rec.ev)

/-- Python's lexicographic comparison of two `(p0, -ev)` tuples. -/
def pairLt (a b : ℚ × ℚ) : Bool :=
  decide (a.1 < b.1) || (decide (a.1 = b.1) && decide (a.2 < b.2))

/-- `choose_next_safest`: `min(posteriors.items(), key=lambda kv: (kv[1]["p"][0],
-kv[1]["ev"]))`; Python's `min` keeps the first item attaining the minimum. -/
def choose_next_safest (posteriors : List ((ℕ × ℕ) × PosteriorRecord)) :
    Option ((ℕ × ℕ) × PosteriorRecord) :=
  match posteriors with
  | [] => none
  | x :: xs =>
      some (xs.foldl (fun best y => if pairLt (keyOf y.2) (keyOf best.2) then y else best) x)

/-- Row-major order on coordinates: lower row first, then lower column. -/
def coordLt (a b : ℕ × ℕ) : Prop :=
  a.1 < b.1 ∨ (a.1 = b.1 ∧ a.2 < b.2)

/-- The posterior record of every unrevealed cell in the fully determined
all-threes puzzle (sums 15, bombs 0, nothing revealed). -/
def recAll3 : PosteriorRecord :=
  { total := 1, p0 := 0, p1 := 0, p2 := 0, p3 := 1, ev := 3 }

/-! ### Claims C5, C7, C8 -/

/-- C5: end-to-end empty propagation.  If some row has no patterns then
`_enumerate_all_boards` returns `[]` (the early return before any search),
`compute_posteriors` returns the empty map and count 0, and
`choose_next_safest` returns `none`; every stage returns a value (the
functions are total), so no exception is possible for unsatisfiable input. -/
theorem C5_empty_propagation (row_sums row_bombs col_sums col_bombs : ℕ → ℤ)
    (opened : OpenedMap) (r : ℕ) (hr : r < 5)
    (h : _enumerate_row_patterns r row_sums row_bombs col_sums col_bombs opened = []) :
    _enumerate_all_boards row_sums row_bombs col_sums col_bombs opened = [] ∧
    compute_posteriors row_sums row_bombs col_sums col_bombs opened = ([], 0) ∧
    choose_next_safest
      (compute_posteriors row_sums row_bombs col_sums col_bombs opened).1 = none := by
  have hb : _enumerate_all_boards row_sums row_bombs col_sums col_bombs opened = [] := by
    rw [_enumerate_all_boards, if_pos]
    rw [List.any_eq_true]
    exact ⟨r, List.mem_range.mpr hr, by rw [h]; rfl⟩
  have hc : compute_posteriors row_sums row_bombs col_sums col_bombs opened = ([], 0) := by
    simp only [compute_posteriors, hb]
    rfl
  exact ⟨hb, hc, by rw [hc]; rfl⟩

theorem C5_empty_propagation_witness :
    _enumerate_all_boards (fun _ => 100) zero5 (fun _ => 100) zero5 openedEmpty = [] ∧
    compute_posteriors (fun _ => 100) zero5 (fun _ => 100) zero5 openedEmpty = ([], 0) ∧
    choose_next_safest
      (compute_posteriors (fun _ => 100) zero5 (fun _ => 100) zero5 openedEmpty).1 = none :=
  C5_empty_propagation (fun _ => 100) zero5 (fun _ => 100) zero5 openedEmpty 0
    (by decide) (by decide)

/-- C7: contradiction detection.  If a row's bomb target is 0 but a revealed
Bomb (value 0) is present in that row, `_enumerate_row_patterns` returns the
empty list: the remaining bomb budget is negative and the very first prune of
the DFS fires. -/
theorem C7_contradiction_detection (row_sums row_bombs col_sums col_bombs : ℕ → ℤ)
    (opened : OpenedMap) (r c : ℕ) (hr : r < 5) (hc : c < 5)
    (hb : row_bombs r = 0) (hopen : opened r c = some 0) :
    _enumerate_row_patterns r row_sums row_bombs col_sums col_bombs opened = [] := by
  simp only [_enumerate_row_patterns, _row_remaining]
  apply dfs_eq_nil_left
  left
  have hmem : c ∈ (List.range 5).filter (fun c2 => opened r c2 = some 0) := by
    rw [List.mem_filter]
    exact ⟨List.mem_range.mpr hc, by simp [hopen]⟩
  have hpos : 0 < ((List.range 5).filter (fun c2 => opened r c2 = some 0)).length :=
    List.length_pos_of_mem hmem
  rw [hb]
  omega

theorem C7_contradiction_detection_witness :
    _enumerate_row_patterns 0 sum15 zero5 sum15 zero5
      (fun r c => if r = 0 ∧ c = 0 then some 0 else none) = [] :=
  C7_contradiction_detection sum15 zero5 sum15 zero5
    (fun r c => if r = 0 ∧ c = 0 then some 0 else none) 0 0
    (by decide) (by decide) (by decide) (by decide)

/-- C8: unique maximal row.  With row sum 15, row bombs 0 and no revealed
cells in the row, the enumeration returns exactly one pattern, `[3,3,3,3,3]`. -/
theorem C8_unique_maximal_row (row_sums row_bombs col_sums col_bombs : ℕ → ℤ)
    (opened : OpenedMap) (r : ℕ) (hr : r < 5)
    (hsum : row_sums r = 15) (hb : row_bombs r = 0)
    (hnone : ∀ c, c < 5 → opened r c = none) :
    _enumerate_row_patterns r row_sums row_bombs col_sums col_bombs opened =
      [[3, 3, 3, 3, 3]] := by
  have hr5 : List.range 5 = [0, 1, 2, 3, 4] := rfl
  have h0 := hnone 0 (by omega)
  have h1 := hnone 1 (by omega)
  have h2 := hnone 2 (by omega)
  have h3 := hnone 3 (by omega)
  have h4 := hnone 4 (by omega)
  have hfix : row_fixed r opened = [none, none, none, none, none] := by
    rw [row_fixed, hr5]
    simp [h0, h1, h2, h3, h4]
  have hS : ((List.range 5).map (fun c => (opened r c).getD 0)).sum = 0 := by
    rw [hr5]
    simp [h0, h1, h2, h3, h4]
  have hZ : ((List.range 5).filter (fun c => opened r c = some 0)).length = 0 := by
    rw [hr5]
    simp [h0, h1, h2, h3, h4]
  simp only [_enumerate_row_patterns, _row_remaining]
  rw [hfix, hS, hZ, hsum, hb]
  norm_num
  decide

theorem C8_unique_maximal_row_witness :
    _enumerate_row_patterns 0 sum15 zero5 sum15 zero5 openedEmpty = [[3, 3, 3, 3, 3]] :=
  C8_unique_maximal_row sum15 zero5 sum15 zero5 openedEmpty 0
    (by decide) (by decide) (by decide) (fun c _ => rfl)

/-! ### Claim C4 -/

lemma compute_posteriors_snd (row_sums row_bombs col_sums col_bombs : ℕ → ℤ)
    (opened : OpenedMap) :
    (compute_posteriors row_sums row_bombs col_sums col_bombs opened).2 =
      (_enumerate_all_boards row_sums row_bombs col_sums col_bombs opened).length := by
  simp only [compute_posteriors]
  split
  · rename_i hemp
    rw [List.isEmpty_iff] at hemp
    rw [hemp]
    rfl
  · rfl

/-- C4: monotonic shrinkage.  For fixed line constraints and revealed maps
with values in `{0,1,2,3}`, if `opened2` contains every entry of `opened1`
with the same value, the board count of `compute_posteriors` under `opened2`
is at most the count under `opened1`. -/
theorem C4_monotonic_shrinkage (row_sums row_bombs col_sums col_bombs : ℕ → ℤ)
    (opened1 opened2 : OpenedMap)
    (hov2 : ∀ r c v, r < 5 → c < 5 → opened2 r c = some v → 0 ≤ v ∧ v ≤ 3)
    (hsub : ∀ r c v, r < 5 → c < 5 → opened1 r c = some v → opened2 r c = some v) :
    (compute_posteriors row_sums row_bombs col_sums col_bombs opened2).2 ≤
      (compute_posteriors row_sums row_bombs col_sums col_bombs opened1).2 := by
  rw [compute_posteriors_snd, compute_posteriors_snd]
  have hov1 : ∀ r c v, r < 5 → c < 5 → opened1 r c = some v → 0 ≤ v ∧ v ≤ 3 :=
    fun r c v hr hc h => hov2 r c v hr hc (hsub r c v hr hc h)
  apply List.Subperm.length_le
  apply List.Nodup.subperm
    (enumerate_all_boards_nodup row_sums row_bombs col_sums col_bombs opened2)
  intro g hg
  rw [mem_boards_iff_valid row_sums row_bombs col_sums col_bombs opened2 hov2 g] at hg
  rw [mem_boards_iff_valid row_sums row_bombs col_sums col_bombs opened1 hov1 g]
  obtain ⟨h5, hlens, hcell, hrows, hcols, hagree⟩ := hg
  exact ⟨h5, hlens, hcell, hrows, hcols,
    fun r c v hr hc h => hagree r c v hr hc (hsub r c v hr hc h)⟩

theorem C4_monotonic_shrinkage_witness :
    (compute_posteriors sum15 zero5 sum15 zero5
        (fun r c => if r = 0 ∧ c = 0 then some 3 else none)).2 ≤
      (compute_posteriors sum15 zero5 sum15 zero5 openedEmpty).2 :=
  C4_monotonic_shrinkage sum15 zero5 sum15 zero5 openedEmpty
    (fun r c => if r = 0 ∧ c = 0 then some 3 else none)
    (fun r c v _ _ h => by
      simp only [] at h
      by_cases hrc : r = 0 ∧ c = 0
      · rw [if_pos hrc] at h
        injection h with h
        omega
      · rw [if_neg hrc] at h
        exact Option.noConfusion h)
    (fun r c v _ _ h => Option.noConfusion h)

/-! ### Claims C6 and C10 -/

lemma mem_targetsList (opened : OpenedMap) (rc : ℕ × ℕ) :
    rc ∈ targetsList opened ↔ rc.1 < 5 ∧ rc.2 < 5 ∧ opened rc.1 rc.2 = none := by
  rw [targetsList, List.mem_flatMap]
  constructor
  · rintro ⟨r, hr, hmem⟩
    rw [List.mem_range] at hr
    rw [List.mem_map] at hmem
    obtain ⟨c, hc, rfl⟩ := hmem
    rw [List.mem_filter, List.mem_range] at hc
    exact ⟨hr, hc.1, by simpa [Option.isNone_iff_eq_none] using hc.2⟩
  · rintro ⟨h1, h2, h3⟩
    refine ⟨rc.1, List.mem_range.mpr h1, ?_⟩
    rw [List.mem_map]
    refine ⟨rc.2, ?_, rfl⟩
    rw [List.mem_filter, List.mem_range]
    exact ⟨h2, by simp [h3]⟩

/-- Every board the enumeration produces keeps unrevealed cells in `{0,1,2,3}`
(no range assumption on the revealed values is needed for this). -/
lemma boards_cell_free_range (rs rb cs cb : ℕ → ℤ) (opened : OpenedMap) (g : Grid)
    (hg : g ∈ _enumerate_all_boards rs rb cs cb opened) (r c : ℕ) (hr : r < 5) (hc : c < 5)
    (hfree : opened r c = none) : 0 ≤ cellOf g r c ∧ cellOf g r c ≤ 3 := by
  rw [mem_enumerate_all_boards] at hg
  obtain ⟨rows, h5, hch, rfl, -⟩ := hg
  have hh := hch r (by omega)
  simp only [Nat.zero_add] at hh
  obtain ⟨hl, -, hok, -, -⟩ :=
    (mem_enumerate_row_patterns r rs rb cs cb opened _).mp hh
  have hfo := freeOkB_getD _ _ hok (by simpa using hl) c
    (by rw [row_fixed_getD _ _ _ hc, hfree])
  rw [cellOf, List.getD_eq_getElem g [] (by omega)]
  simpa [List.get_eq_getElem] using hfo

lemma tally_partition (sols : List Grid) (rc : ℕ × ℕ)
    (hall : ∀ g ∈ sols, cellOf g rc.1 rc.2 = 0 ∨ cellOf g rc.1 rc.2 = 1 ∨
      cellOf g rc.1 rc.2 = 2 ∨ cellOf g rc.1 rc.2 = 3) :
    tally sols rc 0 + tally sols rc 1 + tally sols rc 2 + tally sols rc 3 = sols.length := by
  induction sols with
  | nil => rfl
  | cons g sols ih =>
    have hg := hall g (List.mem_cons_self g sols)
    have htail := ih (fun g2 hg2 => hall g2 (List.mem_cons_of_mem g hg2))
    simp only [tally, List.countP_cons, List.length_cons] at htail ⊢
    rcases hg with h | h | h | h <;> simp [h] <;> omega

lemma mkRecord_fst (sols : List Grid) (rc : ℕ × ℕ) (e : (ℕ × ℕ) × PosteriorRecord)
    (h : mkRecord sols rc = some e) : e.1 = rc := by
  simp only [mkRecord] at h
  split at h
  · exact Option.noConfusion h
  · injection h with h
    rw [← h]

lemma mkRecord_of_total (sols : List Grid) (rc : ℕ × ℕ)
    (htot : tally sols rc 0 + tally sols rc 1 + tally sols rc 2 + tally sols rc 3 =
      sols.length) (hne : sols.length ≠ 0) :
    ∃ rec : PosteriorRecord, mkRecord sols rc = some (rc, rec) ∧ rec.total = sols.length := by
  simp only [mkRecord]
  rw [if_neg (by omega)]
  exact ⟨_, rfl, htot⟩

lemma filterMap_map_fst (l : List (ℕ × ℕ))
    (f : (ℕ × ℕ) → Option ((ℕ × ℕ) × PosteriorRecord))
    (h : ∀ a ∈ l, ∃ b, f a = some (a, b)) : (l.filterMap f).map Prod.fst = l := by
  induction l with
  | nil => rfl
  | cons a l ih =>
    obtain ⟨b, hb⟩ := h a (List.mem_cons_self a l)
    rw [List.filterMap_cons, hb, List.map_cons]
    rw [ih (fun a2 ha2 => h a2 (List.mem_cons_of_mem a ha2))]

/-- C10: shape of the posterior map when solutions exist.  If the returned
board count is nonzero then the key list of the posterior map is exactly the
row-major list of unrevealed coordinates (so the defensive `tot == 0` branch
never drops a coordinate), and every record's `total` equals the board count. -/
theorem C10_posterior_shape (row_sums row_bombs col_sums col_bombs : ℕ → ℤ)
    (opened : OpenedMap)
    (hne : (compute_posteriors row_sums row_bombs col_sums col_bombs opened).2 ≠ 0) :
    ((compute_posteriors row_sums row_bombs col_sums col_bombs opened).1.map Prod.fst =
      targetsList opened) ∧
    (∀ e ∈ (compute_posteriors row_sums row_bombs col_sums col_bombs opened).1,
      e.2.total = (compute_posteriors row_sums row_bombs col_sums col_bombs opened).2) := by
  have hlen : (_enumerate_all_boards row_sums row_bombs col_sums col_bombs opened).length ≠ 0 := by
    rw [← compute_posteriors_snd]
    exact hne
  have hnotemp : (_enumerate_all_boards row_sums row_bombs col_sums col_bombs opened).isEmpty =
      false := by
    rw [List.isEmpty_eq_false_iff_exists_mem]
    have hpos : 0 < (_enumerate_all_boards row_sums row_bombs col_sums col_bombs opened).length :=
      by omega
    exact List.exists_mem_of_length_pos hpos
  have hrec : ∀ rc ∈ targetsList opened, ∃ rec : PosteriorRecord,
      mkRecord (_enumerate_all_boards row_sums row_bombs col_sums col_bombs opened) rc =
        some (rc, rec) ∧
      rec.total = (_enumerate_all_boards row_sums row_bombs col_sums col_bombs opened).length := by
    intro rc hrc
    rw [mem_targetsList] at hrc
    apply mkRecord_of_total _ _ _ hlen
    apply tally_partition
    intro g hg
    have := boards_cell_free_range row_sums row_bombs col_sums col_bombs opened g hg
      rc.1 rc.2 hrc.1 hrc.2.1 hrc.2.2
    omega
  simp only [compute_posteriors, hnotemp, Bool.false_eq_true, if_false]
  constructor
  · exact filterMap_map_fst _ _ (fun a ha => ⟨(hrec a ha).choose, (hrec a ha).choose_spec.1⟩)
  · intro e he
    rw [List.mem_filterMap] at he
    obtain ⟨a, ha, hfa⟩ := he
    obtain ⟨rec, hsome, htot⟩ := hrec a ha
    rw [hsome] at hfa
    injection hfa with hfa
    rw [← hfa]
    exact htot

theorem C10_posterior_shape_witness :
    (compute_posteriors sum15 zero5 sum15 zero5 openedEmpty).1.map Prod.fst =
      targetsList openedEmpty :=
  (C10_posterior_shape sum15 zero5 sum15 zero5 openedEmpty (by decide)).1

/-- C6: posterior normalization and expected value.  Every record of the
posterior map stores the exact tallies divided by its `total`, its four
probabilities sum to 1 (hence within `1e-9` of 1.0), and its `ev` equals
`1*p1 + 2*p2 + 3*p3`. -/
theorem C6_posterior_normalization (row_sums row_bombs col_sums col_bombs : ℕ → ℤ)
    (opened : OpenedMap) (rc : ℕ × ℕ) (rec : PosteriorRecord)
    (hmem : (rc, rec) ∈ (compute_posteriors row_sums row_bombs col_sums col_bombs opened).1) :
    rec.p0 = (tally (_enumerate_all_boards row_sums row_bombs col_sums col_bombs opened)
        rc 0 : ℚ) / (rec.total : ℚ) ∧
    rec.p1 = (tally (_enumerate_all_boards row_sums row_bombs col_sums col_bombs opened)
        rc 1 : ℚ) / (rec.total : ℚ) ∧
    rec.p2 = (tally (_enumerate_all_boards row_sums row_bombs col_sums col_bombs opened)
        rc 2 : ℚ) / (rec.total : ℚ) ∧
    rec.p3 = (tally (_enumerate_all_boards row_sums row_bombs col_sums col_bombs opened)
        rc 3 : ℚ) / (rec.total : ℚ) ∧
    |rec.p0 + rec.p1 + rec.p2 + rec.p3 - 1| ≤ 1 / 1000000000 ∧
    rec.ev = 1 * rec.p1 + 2 * rec.p2 + 3 * rec.p3 := by
  simp only [compute_posteriors] at hmem
  split at hmem
  · exact absurd hmem (List.not_mem_nil _)
  · rw [List.mem_filterMap] at hmem
    obtain ⟨a, -, hfa⟩ := hmem
    simp only [mkRecord] at hfa
    split at hfa
    · exact Option.noConfusion hfa
    · rename_i htot
      injection hfa with hfa
      injection hfa with hfa1 hfa2
      subst hfa1
      subst hfa2
      refine ⟨rfl, rfl, rfl, rfl, ?_, rfl⟩
      have hcast : ((tally (_enumerate_all_boards row_sums row_bombs col_sums col_bombs opened)
          a 0 + tally (_enumerate_all_boards row_sums row_bombs col_sums col_bombs opened)
          a 1 + tally (_enumerate_all_boards row_sums row_bombs col_sums col_bombs opened)
          a 2 + tally (_enumerate_all_boards row_sums row_bombs col_sums col_bombs opened)
          a 3 : ℕ) : ℚ) ≠ 0 := by
        rw [Nat.cast_ne_zero]
        omega
      rw [div_add_div_same, div_add_div_same, div_add_div_same]
      push_cast
      rw [div_self (by push_cast at hcast; exact hcast)]
      norm_num

/-! ### Order facts about the recommender's tuple comparison -/

lemma pairLt_iff (a b : ℚ × ℚ) :
    pairLt a b = true ↔ (a.1 < b.1 ∨ (a.1 = b.1 ∧ a.2 < b.2)) := by
  simp [pairLt]

lemma pairLt_self (a : ℚ × ℚ) : pairLt a a = false := by
  simp [pairLt]

lemma pairLt_eq_false_iff (a b : ℚ × ℚ) :
    pairLt a b = false ↔ (b.1 < a.1 ∨ (a.1 = b.1 ∧ b.2 ≤ a.2)) := by
  rw [← Bool.not_eq_true, pairLt_iff]
  constructor
  · intro h
    push_neg at h
    rcases lt_trichotomy a.1 b.1 with h1 | h1 | h1
    · exact absurd h1 (not_lt.mpr h.1)
    · exact Or.inr ⟨h1, h.2 h1⟩
    · exact Or.inl h1
  · intro h hcon
    rcases h with h | ⟨h1, h2⟩ <;> rcases hcon with hc | ⟨hc1, hc2⟩ <;> linarith

lemma pairLt_trans {a b c : ℚ × ℚ} (h1 : pairLt a b = true) (h2 : pairLt b c = true) :
    pairLt a c = true := by
  rw [pairLt_iff] at h1 h2 ⊢
  rcases h1 with h1 | ⟨h1a, h1b⟩ <;> rcases h2 with h2 | ⟨h2a, h2b⟩
  · exact Or.inl (by linarith)
  · exact Or.inl (by linarith)
  · exact Or.inl (by linarith)
  · exact Or.inr ⟨by linarith, by linarith⟩

lemma pairLt_le_lt {a b c : ℚ × ℚ} (h1 : pairLt b a = false) (h2 : pairLt b c = true) :
    pairLt a c = true := by
  rw [pairLt_eq_false_iff] at h1
  rw [pairLt_iff] at h2 ⊢
  rcases h1 with h1 | ⟨h1a, h1b⟩ <;> rcases h2 with h2 | ⟨h2a, h2b⟩
  · exact Or.inl (by linarith)
  · exact Or.inl (by linarith)
  · exact Or.inl (by linarith)
  · exact Or.inr ⟨by linarith, by linarith⟩

lemma pairLt_lt_le {a b c : ℚ × ℚ} (h1 : pairLt a b = true) (h2 : pairLt c b = false) :
    pairLt a c = true := by
  rw [pairLt_eq_false_iff] at h2
  rw [pairLt_iff] at h1 ⊢
  rcases h1 with h1 | ⟨h1a, h1b⟩ <;> rcases h2 with h2 | ⟨h2a, h2b⟩
  · exact Or.inl (by linarith)
  · exact Or.inl (by linarith)
  · exact Or.inl (by linarith)
  · exact Or.inr ⟨by linarith, by linarith⟩

lemma pairLt_asymm {a b : ℚ × ℚ} (h : pairLt a b = true) : pairLt b a = false := by
  rw [pairLt_iff] at h
  rw [pairLt_eq_false_iff]
  rcases h with h | ⟨h1, h2⟩
  · exact Or.inl h
  · exact Or.inr ⟨h1.symm, le_of_lt h2⟩

/-- Python's `min` characterized: the fold result splits the list as
`l1 ++ result :: l2`, everything before it is strictly greater, and nothing
in the whole list is strictly smaller — i.e. the first minimum wins. -/
lemma foldl_min_split :
    ∀ (xs : List ((ℕ × ℕ) × PosteriorRecord)) (x : (ℕ × ℕ) × PosteriorRecord),
      ∃ l1 l2 : List ((ℕ × ℕ) × PosteriorRecord),
        x :: xs =
          l1 ++ (xs.foldl (fun best y => if pairLt (keyOf y.2) (keyOf best.2) then y else best) x) :: l2 ∧
        (∀ z ∈ l1,
          pairLt (keyOf (xs.foldl (fun best y => if pairLt (keyOf y.2) (keyOf best.2) then y else best) x).2)
            (keyOf z.2) = true) ∧
        (∀ z ∈ x :: xs,
          pairLt (keyOf z.2)
            (keyOf (xs.foldl (fun best y => if pairLt (keyOf y.2) (keyOf best.2) then y else best) x).2) =
            false) := by
  intro xs
  induction xs with
  | nil =>
    intro x
    refine ⟨[], [], rfl, by simp, ?_⟩
    intro z hz
    rw [List.mem_singleton] at hz
    subst hz
    exact pairLt_self _
  | cons y xs ih =>
    intro x
    rw [List.foldl_cons]
    by_cases hxy : pairLt (keyOf y.2) (keyOf x.2) = true
    · rw [if_pos hxy]
      obtain ⟨l1, l2, heq, h1, h2⟩ := ih y
      have hmx : pairLt
          (keyOf (xs.foldl (fun best y2 => if pairLt (keyOf y2.2) (keyOf best.2) then y2 else best) y).2)
          (keyOf x.2) = true :=
        pairLt_le_lt (h2 y (List.mem_cons_self y xs)) hxy
      refine ⟨x :: l1, l2, ?_, ?_, ?_⟩
      · rw [List.cons_append, ← heq]
      · intro z hz
        rcases List.mem_cons.mp hz with rfl | hz
        · exact hmx
        · exact h1 z hz
      · intro z hz
        rcases List.mem_cons.mp hz with rfl | hz
        · exact pairLt_asymm hmx
        · exact h2 z hz
    · rw [if_neg hxy]
      obtain ⟨l1, l2, heq, h1, h2⟩ := ih x
      cases l1 with
      | nil =>
        injection heq with he1 he2
        refine ⟨[], y :: l2, ?_, by simp, ?_⟩
        · rw [List.nil_append, ← he1, ← he2]
        · intro z hz
          rcases List.mem_cons.mp hz with hzx | hz
          · rw [hzx]
            exact h2 x (List.mem_cons_self x xs)
          · rcases List.mem_cons.mp hz with hzy | hz
            · rw [hzy, ← he1]
              simpa using hxy
            · exact h2 z (List.mem_cons_of_mem x (he2 ▸ hz))
      | cons a l1b =>
        injection heq with he1 he2
        have hmx : pairLt
            (keyOf (xs.foldl (fun best y2 => if pairLt (keyOf y2.2) (keyOf best.2) then y2 else best) x).2)
            (keyOf x.2) = true := by
          have := h1 a (List.mem_cons_self a l1b)
          rwa [← he1] at this
        refine ⟨x :: y :: l1b, l2, ?_, ?_, ?_⟩
        · rw [List.cons_append, List.cons_append]
          exact congrArg (fun t => x :: y :: t) he2
        · intro z hz
          rcases List.mem_cons.mp hz with hzx | hz
          · rw [hzx]
            exact hmx
          · rcases List.mem_cons.mp hz with hzy | hz
            · rw [hzy]
              exact pairLt_lt_le hmx (by simpa using hxy)
            · exact h1 z (List.mem_cons_of_mem a hz)
        · intro z hz
          rcases List.mem_cons.mp hz with hzx | hz
          · rw [hzx]
            exact h2 x (List.mem_cons_self x xs)
          · rcases List.mem_cons.mp hz with hzy | hz
            · rw [hzy]
              by_cases hcon : pairLt (keyOf y.2)
                (keyOf (xs.foldl (fun best y2 => if pairLt (keyOf y2.2) (keyOf best.2) then y2 else best) x).2) =
                true
              · exact absurd (pairLt_trans hcon hmx) (by simpa using hxy)
              · simpa using hcon
            · exact h2 z (List.mem_cons_of_mem x hz)

/-! ### Concrete evaluation of the posterior pipeline on the all-threes puzzle -/

lemma filterMap_eq_map_of {α β : Type} (f : α → Option β) (g : α → β) :
    ∀ l : List α, (∀ a ∈ l, f a = some (g a)) → l.filterMap f = l.map g := by
  intro l
  induction l with
  | nil => intro _; rfl
  | cons a l ih =>
    intro h
    rw [List.filterMap_cons, h a (List.mem_cons_self a l), List.map_cons,
      ih (fun b hb => h b (List.mem_cons_of_mem a hb))]

lemma mkRecord_all3 (rc : ℕ × ℕ) (h : cellOf allThrees rc.1 rc.2 = 3) :
    mkRecord [allThrees] rc = some (rc, recAll3) := by
  simp only [mkRecord, tally, List.countP_cons, List.countP_nil, h, recAll3]
  norm_num

lemma post_all3 :
    compute_posteriors sum15 zero5 sum15 zero5 openedEmpty =
      ((targetsList openedEmpty).map (fun rc => (rc, recAll3)), 1) := by
  have hsols : _enumerate_all_boards sum15 zero5 sum15 zero5 openedEmpty = [allThrees] := by
    decide
  have hcells : ∀ r < 5, ∀ c < 5, cellOf allThrees r c = 3 := by decide
  simp only [compute_posteriors, hsols, List.isEmpty_cons, Bool.false_eq_true, if_false,
    List.length_singleton]
  rw [filterMap_eq_map_of (mkRecord [allThrees]) (fun rc => (rc, recAll3))]
  intro rc hrc
  rw [mem_targetsList] at hrc
  exact mkRecord_all3 rc (hcells rc.1 hrc.1 rc.2 hrc.2.1)

lemma foldl_const_min :
    ∀ (xs : List ((ℕ × ℕ) × PosteriorRecord)) (x : (ℕ × ℕ) × PosteriorRecord),
      (∀ y ∈ xs, pairLt (keyOf y.2) (keyOf x.2) = false) →
      xs.foldl (fun best y => if pairLt (keyOf y.2) (keyOf best.2) then y else best) x = x := by
  intro xs
  induction xs with
  | nil => intro x _; rfl
  | cons y xs ih =>
    intro x h
    rw [List.foldl_cons, if_neg (by simp [h y (List.mem_cons_self y xs)]),
      ih x (fun z hz => h z (List.mem_cons_of_mem y hz))]

lemma choose_all3 :
    choose_next_safest (compute_posteriors sum15 zero5 sum15 zero5 openedEmpty).1 =
      some (((0, 0) : ℕ × ℕ), recAll3) := by
  rw [post_all3]
  have ht : targetsList openedEmpty =
      ((0, 0) : ℕ × ℕ) :: (targetsList openedEmpty).drop 1 := by decide
  show choose_next_safest
      ((targetsList openedEmpty).map (fun rc => (rc, recAll3))) = _
  rw [ht, List.map_cons]
  simp only [choose_next_safest]
  rw [foldl_const_min]
  intro y hy
  rcases List.mem_map.mp hy with ⟨rc, -, rfl⟩
  exact pairLt_self _

/-! ### C9: the revealed map is only read, never written

State-passing view of the pipeline: every access the source makes to the
`opened` dictionary is a read (`opened.get(...)`, `(r, c) in opened`,
`opened.items()`); there is no assignment or deletion anywhere in
`_row_remaining`, `_enumerate_row_patterns`, `_enumerate_all_boards` or
`compute_posteriors`.  `readCell` models one dictionary read: it returns the
value together with the (unchanged) map.  The `_st` variants thread the map
state through every read the source performs; the row level recomputes its
result from the read values, while the board level reuses the pure functions
on the threaded state. -/

/-- One dictionary read `opened.get((r, c))`: a value plus the resulting
map state. -/
def readCell (opened : OpenedMap) (r c : ℕ) : Option ℤ × OpenedMap :=
  (opened r c, opened)

/-- A sequence of dictionary reads, threading the map state. -/
def readGrid : List (ℕ × ℕ) → OpenedMap → List (Option ℤ) × OpenedMap
  | [], opened => ([], opened)
  | rc :: rcs, opened =>
    let v := readCell opened rc.1 rc.2
    let rest := readGrid rcs v.2
    (v.1 :: rest.1, rest.2)

lemma readGrid_eq (opened : OpenedMap) :
    ∀ rcs : List (ℕ × ℕ),
      readGrid rcs opened = (rcs.map (fun rc => opened rc.1 rc.2), opened) := by
  intro rcs
  induction rcs with
  | nil => rfl
  | cons rc rcs ih => simp [readGrid, readCell, ih]

/-- All 25 coordinates in row-major order. -/
def allCoords : List (ℕ × ℕ) :=
  (List.range 5).flatMap (fun r => (List.range 5).map (fun c => (r, c)))

/-- `_enumerate_row_patterns`, state-passing: the five reads of row `r` are
performed through `readCell`, and the row quantities `S`, `Z_open` and the
fixed-cell list are recomputed from the values those reads returned. -/
def _enumerate_row_patterns_st (r : ℕ) (row_sums row_bombs col_sums col_bombs : ℕ → ℤ)
    (opened : OpenedMap) : List Pattern × OpenedMap :=
  let rd := readGrid ((List.range 5).map (fun c => (r, c))) opened
  let S : ℤ := (rd.1.map (fun v => v.getD 0)).sum
  let Zopen : ℕ := (rd.1.filter (fun v => v = some 0)).length
  (dfs rd.1 (row_sums r - S) (row_bombs r - (Zopen : ℤ)), rd.2)

lemma enumerate_row_patterns_st_eq (r : ℕ) (row_sums row_bombs col_sums col_bombs : ℕ → ℤ)
    (opened : OpenedMap) :
    _enumerate_row_patterns_st r row_sums row_bombs col_sums col_bombs opened =
      (_enumerate_row_patterns r row_sums row_bombs col_sums col_bombs opened, opened) := by
  simp only [_enumerate_row_patterns_st, _enumerate_row_patterns, _row_remaining, row_fixed,
    readGrid_eq, List.map_map, List.filter_map, List.length_map, Function.comp_def]

/-- `_enumerate_all_boards`, state-passing: the five row-pattern calls happen
in order (stopping at the first empty row, as the source's early `return []`
does), then the column seeds and initial grid read the map again. -/
def _enumerate_all_boards_st (row_sums row_bombs col_sums col_bombs : ℕ → ℤ)
    (opened : OpenedMap) : List Grid × OpenedMap :=
  let p0 := _enumerate_row_patterns_st 0 row_sums row_bombs col_sums col_bombs opened
  if p0.1.isEmpty then ([], p0.2) else
  let p1 := _enumerate_row_patterns_st 1 row_sums row_bombs col_sums col_bombs p0.2
  if p1.1.isEmpty then ([], p1.2) else
  let p2 := _enumerate_row_patterns_st 2 row_sums row_bombs col_sums col_bombs p1.2
  if p2.1.isEmpty then ([], p2.2) else
  let p3 := _enumerate_row_patterns_st 3 row_sums row_bombs col_sums col_bombs p2.2
  if p3.1.isEmpty then ([], p3.2) else
  let p4 := _enumerate_row_patterns_st 4 row_sums row_bombs col_sums col_bombs p3.2
  if p4.1.isEmpty then ([], p4.2) else
  let sRead := readGrid allCoords p4.2
  let zRead := readGrid allCoords sRead.2
  let gRead := readGrid allCoords zRead.2
  (dfs_row (fun r => _enumerate_row_patterns r row_sums row_bombs col_sums col_bombs gRead.2)
    col_sums col_bombs 5 0 (colSumInit sRead.2) (colBzInit zRead.2) (gridInit gRead.2),
    gRead.2)

lemma enumerate_all_boards_st_eq (row_sums row_bombs col_sums col_bombs : ℕ → ℤ)
    (opened : OpenedMap) :
    _enumerate_all_boards_st row_sums row_bombs col_sums col_bombs opened =
      (_enumerate_all_boards row_sums row_bombs col_sums col_bombs opened, opened) := by
  have h5 : List.range 5 = [0, 1, 2, 3, 4] := rfl
  simp only [_enumerate_all_boards_st, enumerate_row_patterns_st_eq, readGrid_eq]
  by_cases e0 : (_enumerate_row_patterns 0 row_sums row_bombs col_sums col_bombs opened).isEmpty <;>
  by_cases e1 : (_enumerate_row_patterns 1 row_sums row_bombs col_sums col_bombs opened).isEmpty <;>
  by_cases e2 : (_enumerate_row_patterns 2 row_sums row_bombs col_sums col_bombs opened).isEmpty <;>
  by_cases e3 : (_enumerate_row_patterns 3 row_sums row_bombs col_sums col_bombs opened).isEmpty <;>
  by_cases e4 : (_enumerate_row_patterns 4 row_sums row_bombs col_sums col_bombs opened).isEmpty <;>
    simp [_enumerate_all_boards, h5, e0, e1, e2, e3, e4]

/-- `targets`, state-passing: the 25 membership reads, with the target list
rebuilt from the values those reads returned. -/
def targetsList_st (opened : OpenedMap) : List (ℕ × ℕ) × OpenedMap :=
  let rd := readGrid allCoords opened
  (((allCoords.zip rd.1).filter (fun p => p.2.isNone)).map Prod.fst, rd.2)

lemma zip_self_map {α β : Type} (f : α → β) :
    ∀ l : List α, l.zip (l.map f) = l.map (fun a => (a, f a)) := by
  intro l
  induction l with
  | nil => rfl
  | cons a l ih => simp [ih]

lemma filter_flatMap2 {α β : Type} (p : β → Bool) (f : α → List β) :
    ∀ l : List α, (l.flatMap f).filter p = l.flatMap (fun a => (f a).filter p) := by
  intro l
  induction l with
  | nil => rfl
  | cons a l ih => simp [List.flatMap_cons, List.filter_append, ih]

lemma targetsList_st_eq (opened : OpenedMap) :
    targetsList_st opened = (targetsList opened, opened) := by
  simp only [targetsList_st, readGrid_eq, zip_self_map, List.filter_map, List.map_map,
    Function.comp_def]
  rw [allCoords, filter_flatMap2, targetsList]
  simp [List.filter_map, Function.comp_def]

/-- `compute_posteriors`, state-passing. -/
def compute_posteriors_st (row_sums row_bombs col_sums col_bombs : ℕ → ℤ)
    (opened : OpenedMap) : (List ((ℕ × ℕ) × PosteriorRecord) × ℕ) × OpenedMap :=
  let bd := _enumerate_all_boards_st row_sums row_bombs col_sums col_bombs opened
  if bd.1.isEmpty then (([], 0), bd.2)
  else
    let tg := targetsList_st bd.2
    ((tg.1.filterMap (mkRecord bd.1), bd.1.length), tg.2)

/-- C9: the solve pipeline does not mutate the revealed map.  In the
state-passing embedding, where every dictionary access of
`compute_posteriors` (and of `_enumerate_all_boards` and
`_enumerate_row_patterns` below it) is a threaded `readCell`, the final map
state equals the initial one on every input, and the computed result agrees
with the pure embedding. -/
theorem C9_revealed_map_not_mutated (row_sums row_bombs col_sums col_bombs : ℕ → ℤ)
    (opened : OpenedMap) :
    (compute_posteriors_st row_sums row_bombs col_sums col_bombs opened).2 = opened ∧
    (compute_posteriors_st row_sums row_bombs col_sums col_bombs opened).1 =
      compute_posteriors row_sums row_bombs col_sums col_bombs opened := by
  have hb := enumerate_all_boards_st_eq row_sums row_bombs col_sums col_bombs opened
  simp only [compute_posteriors_st, hb, targetsList_st_eq, compute_posteriors]
  by_cases he :
      (_enumerate_all_boards row_sums row_bombs col_sums col_bombs opened).isEmpty <;>
    simp [he]

/-! ### C3: the recommender's selection rule -/

lemma targetsList_pairwise (opened : OpenedMap) :
    List.Pairwise coordLt (targetsList opened) := by
  rw [targetsList, List.pairwise_flatMap]
  constructor
  · intro r _
    rw [List.pairwise_map]
    have hp : List.Pairwise (fun a b => a < b)
        ((List.range 5).filter (fun c => (opened r c).isNone)) :=
      List.Pairwise.filter _ (List.pairwise_lt_range 5)
    exact hp.imp (fun h => Or.inr ⟨rfl, h⟩)
  · refine (List.pairwise_lt_range 5).imp ?_
    intro r1 r2 h x hx y hy
    rcases List.mem_map.mp hx with ⟨c1, -, rfl⟩
    rcases List.mem_map.mp hy with ⟨c2, -, rfl⟩
    exact Or.inl h

/-- The posterior association list is keyed in strictly increasing row-major
order (Python dict insertion order). -/
lemma posteriors_pairwise (row_sums row_bombs col_sums col_bombs : ℕ → ℤ)
    (opened : OpenedMap) :
    List.Pairwise (fun a b => coordLt a.1 b.1)
      (compute_posteriors row_sums row_bombs col_sums col_bombs opened).1 := by
  simp only [compute_posteriors]
  split
  · exact List.Pairwise.nil
  · refine List.pairwise_filterMap.mpr ?_
    refine (targetsList_pairwise opened).imp ?_
    intro a b hab x hx y hy
    rw [mkRecord_fst _ _ _ hx, mkRecord_fst _ _ _ hy]
    exact hab

/-- C3: `choose_next_safest` returns `none` on the empty map; on a posterior
map produced by `compute_posteriors` it returns an entry of the map whose
record minimizes `p0`, maximizes `ev` among `p0`-ties, and among full
key-ties is the row-major-least coordinate. -/
theorem C3_recommender_selection (row_sums row_bombs col_sums col_bombs : ℕ → ℤ)
    (opened : OpenedMap) :
    choose_next_safest [] = none ∧
    ∀ best, choose_next_safest
        (compute_posteriors row_sums row_bombs col_sums col_bombs opened).1 = some best →
      best ∈ (compute_posteriors row_sums row_bombs col_sums col_bombs opened).1 ∧
      ∀ e ∈ (compute_posteriors row_sums row_bombs col_sums col_bombs opened).1,
        best.2.p0 ≤ e.2.p0 ∧
        (best.2.p0 = e.2.p0 → e.2.ev ≤ best.2.ev) ∧
        (best.2.p0 = e.2.p0 → best.2.ev = e.2.ev →
          best.1.1 < e.1.1 ∨ (best.1.1 = e.1.1 ∧ best.1.2 ≤ e.1.2)) := by
  refine ⟨rfl, ?_⟩
  intro best hbest
  have hpw := posteriors_pairwise row_sums row_bombs col_sums col_bombs opened
  rcases hp : (compute_posteriors row_sums row_bombs col_sums col_bombs opened).1 with
    - | ⟨x, xs⟩
  · rw [hp] at hbest
    exact Option.noConfusion hbest
  · rw [hp] at hbest hpw
    obtain ⟨l1, l2, heq, h1, h2⟩ := foldl_min_split xs x
    have hbe : best =
        xs.foldl (fun best y => if pairLt (keyOf y.2) (keyOf best.2) then y else best) x := by
      simp only [choose_next_safest] at hbest
      exact (Option.some.inj hbest).symm
    rw [← hbe] at heq h1 h2
    constructor
    · rw [heq]
      exact List.mem_append_right l1 (List.mem_cons_self best l2)
    · intro e he
      have hkey := h2 e (heq ▸ he)
      simp only [pairLt_eq_false_iff, keyOf, neg_le_neg_iff] at hkey
      refine ⟨?_, ?_, ?_⟩
      · rcases hkey with hk | ⟨hk, -⟩
        · exact le_of_lt hk
        · exact le_of_eq hk.symm
      · intro hp0
        rcases hkey with hk | ⟨-, hk⟩
        · exact absurd hp0 (ne_of_lt hk)
        · linarith
      · intro hp0 hev
        rw [heq] at hpw he
        rcases List.mem_append.mp he with hel | her
        · have hlt := h1 e hel
          simp only [pairLt_iff, keyOf, neg_lt_neg_iff] at hlt
          rcases hlt with hk | ⟨-, hk⟩ <;> [exact absurd hp0 (ne_of_lt hk); linarith]
        · rcases List.mem_cons.mp her with hee | hel2
          · rw [hee]
            exact Or.inr ⟨rfl, le_refl _⟩
          · have hcoord : coordLt best.1 e.1 :=
              (List.pairwise_cons.mp (List.pairwise_append.mp hpw).2.1).1 e hel2
            rcases hcoord with hk | ⟨hk1, hk2⟩
            · exact Or.inl hk
            · exact Or.inr ⟨hk1, le_of_lt hk2⟩

/-- C3 witness: on the all-threes puzzle the recommender returns cell (0,0)
(the row-major-least coordinate, all posteriors being equal), and that
entry belongs to the posterior map; the empty case returns `none`. -/
theorem C3_recommender_selection_witness :
    choose_next_safest [] = none ∧
    (((0, 0) : ℕ × ℕ), recAll3) ∈
      (compute_posteriors sum15 zero5 sum15 zero5 openedEmpty).1 := by
  obtain ⟨hnone, hsel⟩ :=
    C3_recommender_selection sum15 zero5 sum15 zero5 openedEmpty
  exact ⟨hnone, (hsel (((0, 0) : ℕ × ℕ), recAll3) choose_all3).1⟩

/-- C6 witness: the normalization facts instantiated at the record of cell
(0,0) of the all-threes puzzle. -/
theorem C6_posterior_normalization_witness :
    recAll3.p0 = (tally (_enumerate_all_boards sum15 zero5 sum15 zero5 openedEmpty)
        ((0, 0) : ℕ × ℕ) 0 : ℚ) / (recAll3.total : ℚ) ∧
    |recAll3.p0 + recAll3.p1 + recAll3.p2 + recAll3.p3 - 1| ≤ 1 / 1000000000 ∧
    recAll3.ev = 1 * recAll3.p1 + 2 * recAll3.p2 + 3 * recAll3.p3 := by
  have hmem : (((0, 0) : ℕ × ℕ), recAll3) ∈
      (compute_posteriors sum15 zero5 sum15 zero5 openedEmpty).1 := by
    rw [post_all3]
    have ht : targetsList openedEmpty =
        ((0, 0) : ℕ × ℕ) :: (targetsList openedEmpty).drop 1 := by decide
    show (((0, 0) : ℕ × ℕ), recAll3) ∈
      (targetsList openedEmpty).map (fun rc => (rc, recAll3))
    rw [ht, List.map_cons]
    exact List.mem_cons_self _ _
  obtain ⟨h0, _, _, _, h4, h5⟩ :=
    C6_posterior_normalization sum15 zero5 sum15 zero5 openedEmpty ((0, 0) : ℕ × ℕ)
      recAll3 hmem
  exact ⟨h0, h4, h5⟩

end Voltorb
